import Mathlib

/-!
Verification of the hyperscribe node-construction engine.

The single source module exports three functions: `addProps`, `addChildren`
and `createElement`.  This development gives a shallow embedding of those
functions over an explicit document-tree state (a heap of nodes indexed by
`Nat`), together with a deep embedding of the JavaScript values that flow
through them: primitives, arrays, plain objects, existing tree nodes and
functions.  Caller-supplied functions (constructor hooks, `onbeforeappend` /
`onappend` hooks, `toElement` / `toString` producers) are embedded as
first-order bodies (`FnBody`) able to return values, mutate node properties,
allocate nodes or throw; every invocation is recorded in an event trace so
that call ordering and call counts are observable.

Modelling notes (host-API fidelity level):
* `appendChild` re-parents: the appended node is first detached from any
  current parent, matching DOM semantics.
* `classList.add` validates its tokens (empty / whitespace tokens raise) and
  ignores tokens already present, matching `DOMTokenList`.  Raw attribute
  text normalisation is not modelled; the class state is kept as a token
  list.
* `for … in` enumeration follows JavaScript: plain objects enumerate their
  fields, arrays and strings enumerate their index keys, primitives
  enumerate nothing.  Enumeration of host tree nodes is host-dependent and
  modelled as empty; no theorem relies on it.
* String coercion of a plain object can throw in JavaScript: an own
  `toString` binding that is not callable sends `addChildren` into its
  final `'' + children` branch, where `ToPrimitive` finds no callable
  method returning a primitive and raises a `TypeError`; a callable own
  `toString` that throws propagates.  `appendLeaf` models both: an own
  non-callable `toString` binding raises, an own callable one is invoked
  (its exception propagating), and only the absence of an own binding
  falls back to the inherited `"[object Object]"`.  The pure `jsToString`
  is used where the coerced value is a primitive or a producer's returned
  value; the `benign` predicate confines every theorem that asserts
  success to values whose coercions cannot throw and whose rendered text
  the embedding reproduces exactly.
* The pure `jsToString` renders a function as `"function () \x7b\x7d"` and a
  tree-node handle as `"[object HTMLElement]"`; no theorem asserts the text
  content produced by coercing a function or a node.
* The `props` field of a node models plain data properties of the element
  object.  Host-reflected or exotic accessors (`className`, `htmlFor`,
  `tabIndex`, forwarding properties such as `classList`, read-only IDL
  attributes) are not part of that store: the special-cased branches write
  the dedicated class / attribute state, and the property theorems exclude
  the reflected alias targets of the special-cased keys.
* `appendChild` cycle errors (`HierarchyRequestError`) are not modelled;
  theorems that assert a successful append require every referenced
  existing node to be childless and distinct from the target, which rules
  the cyclic cases out of scope.
* JavaScript object literals cannot carry duplicate keys, so iterating the
  field list of an embedded object and reading each pair's value agrees
  with the source's `props[key]` lookups.
-/

namespace Hyperscribe

/-- Deep-embedded body of a caller-supplied JavaScript function (a hook, a
`toElement` producer or a `toString` producer).  The body determines both
the side effect and the return value of a call. -/
inductive FnBody where
  | ret                               -- return undefined, no effect
  | raise (msg : String)              -- throw an exception
  | setStrProp (k v : String)         -- assign a string to a property of the argument node
  | retNewElem (tag : String)         -- create and return a fresh element node
  | retNode (id : Nat)                -- return an existing node
  | retStr (s : String)               -- return a string
deriving DecidableEq, Repr

/-- A JavaScript function value: an identity (used in the event trace) plus
its behaviour. -/
structure Fn where
  id : Nat
  body : FnBody
deriving DecidableEq, Repr

mutual
/-- A JavaScript value as seen by the engine. -/
inductive JSVal where
  | undef
  | null
  | bool (b : Bool)
  | num (n : Int)
  | str (s : String)
  | arr (elems : JSList) (props : JSProps)
  | obj (fields : JSProps)
  | nodeRef (id : Nat)
  | func (fn : Fn)

/-- A list of JavaScript values (array elements). -/
inductive JSList where
  | nil
  | cons (head : JSVal) (tail : JSList)

/-- String-keyed properties of a JavaScript object or array. -/
inductive JSProps where
  | nil
  | cons (key : String) (val : JSVal) (tail : JSProps)
end

/-- First binding of a key in a property list (JavaScript object lookup). -/
def lookupA : JSProps → String → Option JSVal
  | .nil, _ => none
  | .cons k v t, key => if k = key then some v else lookupA t key

/-- Assign a key in a property list: replace the existing binding or append
a new one (JavaScript property write). -/
def setAssoc : JSProps → String → JSVal → JSProps
  | .nil, k, v => .cons k v .nil
  | .cons k' v' t, k, v =>
      if k' = k then .cons k v t else .cons k' v' (setAssoc t k v)

/-- Concatenation of property lists. -/
def appendP : JSProps → JSProps → JSProps
  | .nil, q => q
  | .cons k v t, q => .cons k v (appendP t q)

/-- Assign a key in a string-valued association list (styles, dataset,
attributes). -/
def setKV : List (String × String) → String → String → List (String × String)
  | [], k, v => [(k, v)]
  | (k', v') :: t, k, v =>
      if k' = k then (k, v) :: t else (k', v') :: setKV t k v

/-- First value of a key in a string-valued association list. -/
def lookupKV : List (String × String) → String → Option String
  | [], _ => none
  | (k', v') :: t, k => if k' = k then some v' else lookupKV t k

/-- The kind of a document-tree node. -/
inductive NKind where
  | element
  | text
  | comment
deriving DecidableEq, Repr

/-- A mutable document-tree node.  `tag` is meaningful for elements,
`content` for text and comment nodes.  `classes` is the class token list
(the `classList` view of the class attribute), `styles` the inline style
map, `dataset` the custom-data map, `attrs` the attributes written through
`setAttribute`, and `children` the child nodes, by heap index. -/
structure Node where
  kind : NKind := .element
  tag : String := ""
  content : String := ""
  props : JSProps := .nil
  classes : List String := []
  styles : List (String × String) := []
  dataset : List (String × String) := []
  attrs : List (String × String) := []
  children : List Nat := []

/-- An observable invocation of a caller-supplied function.  `call` records
a one-argument invocation (hooks receive a node) together with a snapshot
of that node's children at call time; `call0` records a zero-argument
invocation (`toElement` / `toString` producers). -/
inductive Event where
  | call (fnId : Nat) (arg : Nat) (argChildren : List Nat)
  | call0 (fnId : Nat)

/-- The document state: a heap of nodes (indices are node identities) and
the trace of function invocations so far. -/
structure St where
  nodes : List Node := []
  trace : List Event := []

/-- Failures: `thrown` for exceptions raised by caller-supplied functions,
`hostErr` for failures raised by the host tree API. -/
inductive Err where
  | thrown (msg : String)
  | hostErr (msg : String)

/-- Read a node from the heap (out-of-range reads yield an inert default;
no theorem depends on them). -/
def getN (st : St) (i : Nat) : Node :=
  st.nodes.getD i {}

/-- Write a node back to the heap (out-of-range writes are dropped). -/
def setNode (i : Nat) (nd : Node) (st : St) : St :=
  { st with nodes := st.nodes.set i nd }

/-- Detach a node from every parent: the first half of `appendChild`'s
re-parenting behaviour. -/
def detach (c : Nat) (st : St) : St :=
  { st with nodes := st.nodes.map fun nd => { nd with children := nd.children.filter (· ≠ c) } }

/-- `el.appendChild(c)`: detach `c` from its current parent, then append it
to `el`'s children. -/
def appendChild (el c : Nat) (st : St) : St :=
  let st' := detach c st
  setNode el { getN st' el with children := (getN st' el).children ++ [c] } st'

/-- An element node with the given tag. -/
def elemNode (tag : String) : Node := { kind := .element, tag := tag }

/-- A text node with the given data. -/
def textNode (s : String) : Node := { kind := .text, content := s }

/-- A comment node with the given data. -/
def commentNode (s : String) : Node := { kind := .comment, content := s }

/-- `document.createTextNode(s)` followed by `el.appendChild(...)`. -/
def appendNewText (el : Nat) (s : String) (st : St) : St :=
  appendChild el st.nodes.length { st with nodes := st.nodes ++ [textNode s] }

/-- `document.createComment(s)` followed by `el.appendChild(...)`. -/
def appendNewComment (el : Nat) (s : String) (st : St) : St :=
  appendChild el st.nodes.length { st with nodes := st.nodes ++ [commentNode s] }

mutual
/-- Implicit JavaScript string coercion (`'' + v`, `String(v)`).  For plain
objects the overridden `toString` body is consulted when present; bodies
that do not return a string directly are modelled coarsely (see the
module comment). -/
def jsToString : JSVal → String
  | .undef => "undefined"
  | .null => "null"
  | .bool b => if b then "true" else "false"
  | .num n => toString n
  | .str s => s
  | .arr xs _ => String.intercalate "," (joinList xs)
  | .nodeRef _ => "[object HTMLElement]"
  | .func _ => "function () {}"
  | .obj fields =>
      match lookupA fields "toString" with
      | some (.func f) =>
          match f.body with
          | .retStr s => s
          | .ret => "undefined"
          | .setStrProp _ _ => "undefined"
          | .retNewElem _ => "[object HTMLElement]"
          | .retNode _ => "[object HTMLElement]"
          | .raise _ => ""
      | _ => "[object Object]"

/-- `Array.prototype.join(',')` element coercion: `null` and `undefined`
become empty strings, everything else is coerced. -/
def joinList : JSList → List String
  | .nil => []
  | .cons x t =>
      (match x with
       | .undef => ""
       | .null => ""
       | v => jsToString v) :: joinList t
end

/-- `Object.prototype.toString.call(v)`: the runtime-shape tag the
constructor uses to recognise property bags.  Host node tags vary by
element class; all that matters is that only plain objects produce
`"[object Object]"`. -/
def jsTag : JSVal → String
  | .undef => "[object Undefined]"
  | .null => "[object Null]"
  | .bool _ => "[object Boolean]"
  | .num _ => "[object Number]"
  | .str _ => "[object String]"
  | .arr _ _ => "[object Array]"
  | .obj _ => "[object Object]"
  | .nodeRef _ => "[object HTMLElement]"
  | .func _ => "[object Function]"

/-- JavaScript truthiness. -/
def truthy : JSVal → Bool
  | .undef => false
  | .null => false
  | .bool b => b
  | .num n => n ≠ 0
  | .str s => s ≠ ""
  | _ => true

/-- `typeof v === 'function'` filter on a property lookup result. -/
def asFn : Option JSVal → Option Fn
  | some (.func f) => some f
  | _ => none

/-- `typeof value[name] === 'function'` for a child value: arrays and plain
objects carry their own properties; tree nodes carry heap properties;
primitives have none. -/
def hookProp (st : St) (v : JSVal) (name : String) : Option Fn :=
  match v with
  | .arr _ ps => asFn (lookupA ps name)
  | .obj fields => asFn (lookupA fields name)
  | .nodeRef i => asFn (lookupA (getN st i).props name)
  | _ => none

/-- Run a caller-supplied function with a node argument, recording the call
(and a snapshot of the argument's children) in the trace. -/
def runFn (f : Fn) (arg : Nat) (st : St) : Except (Err × St) (JSVal × St) :=
  let st₁ : St := { st with trace := st.trace ++ [Event.call f.id arg (getN st arg).children] }
  match f.body with
  | .ret => .ok (.undef, st₁)
  | .raise msg => .error (.thrown msg, st₁)
  | .setStrProp k v =>
      .ok (.undef, setNode arg { getN st₁ arg with props := setAssoc (getN st₁ arg).props k (.str v) } st₁)
  | .retNewElem tag => .ok (.nodeRef st₁.nodes.length, { st₁ with nodes := st₁.nodes ++ [elemNode tag] })
  | .retNode i => .ok (.nodeRef i, st₁)
  | .retStr s => .ok (.str s, st₁)

/-- Run a zero-argument producer (`toElement` / `toString`).  A
`setStrProp` body has no argument node to mutate and is a no-op here. -/
def runFn0 (f : Fn) (st : St) : Except (Err × St) (JSVal × St) :=
  let st₁ : St := { st with trace := st.trace ++ [Event.call0 f.id] }
  match f.body with
  | .ret => .ok (.undef, st₁)
  | .raise msg => .error (.thrown msg, st₁)
  | .setStrProp _ _ => .ok (.undef, st₁)
  | .retNewElem tag => .ok (.nodeRef st₁.nodes.length, { st₁ with nodes := st₁.nodes ++ [elemNode tag] })
  | .retNode i => .ok (.nodeRef i, st₁)
  | .retStr s => .ok (.str s, st₁)

/-- Run an optional append-lifecycle hook, discarding its return value. -/
def runHook (h : Option Fn) (arg : Nat) (st : St) : Except (Err × St) St :=
  match h with
  | none => .ok st
  | some f =>
      match runFn f arg st with
      | .error e => .error e
      | .ok (_, st') => .ok st'

/-- The non-recursive branches of `addChildren`'s shape dispatch, in source
order: recognised tree nodes are appended directly; `null` / `undefined`
append a coerced comment; objects try `toElement`, then an own callable
`toString`; an own `toString` binding that is not callable makes the final
`'' + children` coercion raise a `TypeError` (`ToPrimitive` finds no
callable method returning a primitive); only an object with no own
`toString` reaches the inherited one, appending `"[object Object]"`.
Remaining primitives append their exact string coercion as text. -/
def appendLeaf (children : JSVal) (el : Nat) (st : St) : Except (Err × St) St :=
  match children with
  | .nodeRef i => .ok (appendChild el i st)
  | .undef => .ok (appendNewComment el "undefined" st)
  | .null => .ok (appendNewComment el "null" st)
  | .obj fields =>
      match asFn (lookupA fields "toElement") with
      | some f =>
          match runFn0 f st with
          | .error e => .error e
          | .ok (r, st₁) =>
              match r with
              | .nodeRef i => .ok (appendChild el i st₁)
              | _ => .error (.hostErr "appendChild: argument is not a Node", st₁)
      | none =>
          match lookupA fields "toString" with
          | some (.func f) =>
              match runFn0 f st with
              | .error e => .error e
              | .ok (r, st₁) => .ok (appendNewText el (jsToString r) st₁)
          | some _ => .error (.hostErr "TypeError: cannot convert object to primitive value", st)
          | none => .ok (appendNewText el "[object Object]" st)
  | v => .ok (appendNewText el (jsToString v) st)

mutual
/-- `addChildren(children, el)` from the source: run the `onbeforeappend`
hook when the value exposes one, dispatch on the value's shape (arrays
recurse element by element), then run the `onappend` hook, looking it up
in the state the dispatch produced. -/
def addChildren (children : JSVal) (el : Nat) (st : St) : Except (Err × St) St :=
  match runHook (if truthy children then hookProp st children "onbeforeappend" else none) el st with
  | .error e => .error e
  | .ok st₁ =>
      match (match children with
             | .arr xs _ => addChildrenList xs el st₁
             | v => appendLeaf v el st₁) with
      | .error e => .error e
      | .ok st₂ =>
          runHook (if truthy children then hookProp st₂ children "onappend" else none) el st₂

/-- The `children.forEach(child => addChildren(child, el))` loop. -/
def addChildrenList (xs : JSList) (el : Nat) (st : St) : Except (Err × St) St :=
  match xs with
  | .nil => .ok st
  | .cons x t =>
      match addChildren x el st with
      | .error e => .error e
      | .ok st' => addChildrenList t el st'
end

/-- Coerce the spread arguments of `el.classList.add(...classNames)` to
strings. -/
def tokensOfList : JSList → List String
  | .nil => []
  | .cons x t => jsToString x :: tokensOfList t

/-- A valid `DOMTokenList` token: nonempty and free of whitespace. -/
def validToken (s : String) : Bool :=
  s ≠ "" && s.toList.all (fun ch => !ch.isWhitespace)

/-- `DOMTokenList.add` for one token: append it unless already present. -/
def addTok (cs : List String) (t : String) : List String :=
  if cs.contains t then cs else cs ++ [t]

/-- `el.classList.add(...toks)`: validate every token first (raising the
host error on an invalid one), then add each in order. -/
def classListAdd (el : Nat) (toks : List String) (st : St) : Except (Err × St) St :=
  if toks.all validToken then
    .ok (setNode el { getN st el with classes := toks.foldl addTok (getN st el).classes } st)
  else
    .error (.hostErr "DOMTokenList.add: invalid token", st)

/-- Whitespace-split a class attribute string into tokens. -/
def tokenize (s : String) : List String :=
  (s.split fun c => c.isWhitespace).filter (· ≠ "")

/-- Index-key pairs of an array, as enumerated by `for … in`. -/
def idxPairs (i : Nat) : JSList → JSProps
  | .nil => .nil
  | .cons x t => .cons (toString i) x (idxPairs (i + 1) t)

/-- Index-key pairs of a string, as enumerated by `for … in`. -/
def strPairs (i : Nat) : List Char → JSProps
  | [] => .nil
  | c :: t => .cons (toString i) (.str c.toString) (strPairs (i + 1) t)

/-- The `for (const key in v)` enumeration of a JavaScript value: objects
enumerate their fields, arrays their index keys then their own properties,
strings their index keys; primitives enumerate nothing.  Enumeration of
host tree nodes is host-dependent and modelled as empty. -/
def enumPairs : JSVal → JSProps
  | .obj fields => fields
  | .arr xs ps => appendP (idxPairs 0 xs) ps
  | .str s => strPairs 0 s.toList
  | _ => .nil

/-- The `for (let rule in styles) el.style[rule] = styles[rule]` loop. -/
def styleSet (el : Nat) : JSProps → St → St
  | .nil, st => st
  | .cons k v t, st =>
      styleSet el t (setNode el { getN st el with styles := setKV (getN st el).styles k (jsToString v) } st)

/-- The `for (const dataKey in dataset) el.dataset[dataKey] = ...` loop
(the host coerces dataset values to strings). -/
def datasetSet (el : Nat) : JSProps → St → St
  | .nil, st => st
  | .cons k v t, st =>
      datasetSet el t (setNode el { getN st el with dataset := setKV (getN st el).dataset k (jsToString v) } st)

/-- The `for (const attr in aria) el.setAttribute('aria-' + attr, ...)`
loop (`setAttribute` coerces its value to a string). -/
def ariaSet (el : Nat) : JSProps → St → St
  | .nil, st => st
  | .cons k v t, st =>
      ariaSet el t (setNode el { getN st el with attrs := setKV (getN st el).attrs ("aria-" ++ k) (jsToString v) } st)

/-- One iteration of the `addProps` key dispatch, in source order:
`class`, `for`, `tabindex`, `style`, `dataset`, `role`, `aria`, then the
general rule assigning the value as a same-named property. -/
def addOneProp (key : String) (v : JSVal) (el : Nat) (st : St) : Except (Err × St) St :=
  if key = "class" then
    match v with
    | .arr xs _ => classListAdd el (tokensOfList xs) st
    | .undef => .ok st
    | .null => .ok st
    | _ => .ok (setNode el { getN st el with classes := tokenize (jsToString v) } st)
  else if key = "for" then
    .ok (setNode el { getN st el with props := setAssoc (getN st el).props "htmlFor" v } st)
  else if key = "tabindex" then
    .ok (setNode el { getN st el with props := setAssoc (getN st el).props "tabIndex" v } st)
  else if key = "style" then
    .ok (styleSet el (enumPairs v) st)
  else if key = "dataset" then
    .ok (datasetSet el (enumPairs v) st)
  else if key = "role" then
    .ok (setNode el { getN st el with attrs := setKV (getN st el).attrs "role" (jsToString v) } st)
  else if key = "aria" then
    .ok (ariaSet el (enumPairs v) st)
  else
    .ok (setNode el { getN st el with props := setAssoc (getN st el).props key v } st)

/-- The `for (const key in props)` loop of `addProps`. -/
def addPropsGo : JSProps → Nat → St → Except (Err × St) St
  | .nil, _, st => .ok st
  | .cons key v t, el, st =>
      match addOneProp key v el st with
      | .error e => .error e
      | .ok st' => addPropsGo t el st'

/-- `addProps(props, el)` from the source. -/
def addProps (props : JSVal) (el : Nat) (st : St) : Except (Err × St) St :=
  addPropsGo (enumPairs props) el st

/-- One argument of `createElement`'s classifier, in source order: a value
whose shape tag is `"[object Object]"` goes to `addProps`; a function is
invoked with the element (return value discarded); everything else goes to
`addChildren`. -/
def procArg (arg : JSVal) (el : Nat) (st : St) : Except (Err × St) St :=
  if jsTag arg = "[object Object]" then
    addProps arg el st
  else
    match arg with
    | .func f =>
        match runFn f el st with
        | .error e => .error e
        | .ok (_, st') => .ok st'
    | v => addChildren v el st

/-- The classifier's left-to-right loop over the trailing arguments. -/
def procArgs : List JSVal → Nat → St → Except (Err × St) St
  | [], _, st => .ok st
  | a :: rest, el, st =>
      match procArg a el st with
      | .error e => .error e
      | .ok st' => procArgs rest el st'

/-- `createElement(tag, ...args)` from the source: create a bare element,
feed each trailing argument through the classifier, return the element. -/
def createElement (tag : String) (args : List JSVal) (st : St) : Except (Err × St) (Nat × St) :=
  let el := st.nodes.length
  let st₁ : St := { st with nodes := st.nodes ++ [elemNode tag] }
  match procArgs args el st₁ with
  | .error e => .error e
  | .ok st' => .ok (el, st')

/-! ### Specification-side definitions

Derived notions used to state properties of the engine: the depth-first
flattening of a child value, the content each non-sequence value appends,
benignness of caller-supplied functions (they do not throw and elementable
producers return nodes), and state well-formedness. -/

mutual
/-- Depth-first flattening of a child value: arrays flatten to their
elements recursively, everything else is a single leaf. -/
def flatten : JSVal → List JSVal
  | .arr xs _ => flattenList xs
  | v => [v]

/-- Depth-first flattening of an array's elements. -/
def flattenList : JSList → List JSVal
  | .nil => []
  | .cons x t => flatten x ++ flattenList t
end

/-- The content a non-sequence child value contributes to its parent. -/
inductive LeafOut where
  | useRef (i : Nat)
  | newText (s : String)
  | newComment (s : String)
  | newElem (tag : String)
deriving DecidableEq, Repr

/-- The string a `toString` producer's return value coerces to inside
`createTextNode` (matching `jsToString` on `runFn0`'s return value). -/
def toStringOut : FnBody → String
  | .retStr s => s
  | .ret => "undefined"
  | .setStrProp _ _ => "undefined"
  | .retNewElem _ => "[object HTMLElement]"
  | .retNode _ => "[object HTMLElement]"
  | .raise _ => ""

/-- Predicted appended content for a non-sequence child value, following
the dispatch order of `addChildren`.  The `newText ""` fallback for a
non-node-returning `toElement` body is unreachable for `benign` values. -/
def leafOut : JSVal → LeafOut
  | .undef => .newComment "undefined"
  | .null => .newComment "null"
  | .nodeRef i => .useRef i
  | .obj fields =>
      match asFn (lookupA fields "toElement") with
      | some f =>
          match f.body with
          | .retNewElem t => .newElem t
          | .retNode j => .useRef j
          | _ => .newText ""
      | none =>
          match asFn (lookupA fields "toString") with
          | some f => .newText (toStringOut f.body)
          | none => .newText "[object Object]"
  | v => .newText (jsToString v)

/-- Node ids an appended leaf takes from the existing tree. -/
def refOf (v : JSVal) : List Nat :=
  match leafOut v with
  | .useRef i => [i]
  | _ => []

mutual
/-- All existing-tree node ids a child value will append, in depth-first
order. -/
def refsOf : JSVal → List Nat
  | .arr xs _ => refsOfList xs
  | v => refOf v

/-- All existing-tree node ids an array's elements will append. -/
def refsOfList : JSList → List Nat
  | .nil => []
  | .cons x t => refsOf x ++ refsOfList t
end

mutual
/-- No function value occurs among the leaves of a child value.  The
embedding renders a coerced function as a fixed placeholder rather than
its source text, so content-exact theorems exclude function leaves. -/
def funcFree : JSVal → Bool
  | .arr xs _ => funcFreeList xs
  | .func _ => false
  | _ => true

/-- No function value occurs among the leaves of an array's elements. -/
def funcFreeList : JSList → Bool
  | .nil => true
  | .cons x t => funcFree x && funcFreeList t
end

/-- The appended child at position `c` realises the content predicted for
the leaf value `v`. -/
def leafMatches (st : St) (v : JSVal) (c : Nat) : Prop :=
  match leafOut v with
  | .useRef i => c = i
  | .newText s =>
      (getN st c).kind = .text ∧ (getN st c).content = s ∧ (getN st c).children = []
  | .newComment s =>
      (getN st c).kind = .comment ∧ (getN st c).content = s ∧ (getN st c).children = []
  | .newElem t =>
      (getN st c).kind = .element ∧ (getN st c).tag = t ∧ (getN st c).children = []

/-- The special-cased keys of the Property Applier, in source order. -/
def specialKeys : List String :=
  ["class", "for", "tabindex", "style", "dataset", "role", "aria"]

/-- The keys of a property list, in order. -/
def keysOf : JSProps → List String
  | .nil => []
  | .cons k _ t => k :: keysOf t

/-- Shape test for ordered sequences (`Array.isArray`). -/
def isArr : JSVal → Bool
  | .arr _ _ => true
  | _ => false

/-- A function body that does not throw. -/
def nonRaising : FnBody → Bool
  | .raise _ => false
  | _ => true

/-- A hook slot is benign when absent or non-throwing. -/
def hookOk : Option Fn → Bool
  | some f => nonRaising f.body
  | none => true

/-- A `toString` producer body the embedding renders exactly: it does not
raise, and it returns a primitive.  A body returning a node is excluded
conservatively — `createTextNode` then renders the node with a
host-specific interface tag (`"[object HTMLDivElement]"`, …) that the
embedding does not model. -/
def strBodyOk : FnBody → Bool
  | .ret => true
  | .setStrProp _ _ => true
  | .retStr _ => true
  | _ => false

mutual
/-- A child value is benign when every hook it exposes is non-throwing,
every `toElement` producer it exposes returns a node, and any own
`toString` binding is a callable, non-throwing producer of a primitive.
A non-callable own `toString` is not benign — the `'' + children` coercion
raises a `TypeError` on it — and a node-returning producer is excluded
because its rendered text is host-specific.  The same holds recursively
for array elements; hooks of existing tree nodes are read from the heap
`st`. -/
def benign (st : St) : JSVal → Bool
  | .arr xs ps =>
      hookOk (asFn (lookupA ps "onbeforeappend")) &&
      hookOk (asFn (lookupA ps "onappend")) &&
      benignList st xs
  | .obj fields =>
      hookOk (asFn (lookupA fields "onbeforeappend")) &&
      hookOk (asFn (lookupA fields "onappend")) &&
      (match asFn (lookupA fields "toElement") with
       | some f =>
           match f.body with
           | .retNewElem _ => true
           | .retNode _ => true
           | _ => false
       | none =>
           match lookupA fields "toString" with
           | none => true
           | some (.func f) => strBodyOk f.body
           | some _ => false)
  | .nodeRef i =>
      hookOk (asFn (lookupA (getN st i).props "onbeforeappend")) &&
      hookOk (asFn (lookupA (getN st i).props "onappend"))
  | _ => true

/-- Benignness of every element of an array. -/
def benignList (st : St) : JSList → Bool
  | .nil => true
  | .cons x t => benign st x && benignList st t
end

/-- No node lists `c` among its children. -/
def Unattached (st : St) (c : Nat) : Prop :=
  ∀ j, c ∉ (getN st j).children

/-- Decidable check that no node lists `c` among its children. -/
def unattachedB (st : St) (c : Nat) : Bool :=
  st.nodes.all fun nd => !(nd.children.contains c)

/-- Every child reference points inside the heap. -/
def WfSt (st : St) : Prop :=
  ∀ j, ∀ c ∈ (getN st j).children, c < st.nodes.length

/-- Decidable check that every child reference points inside the heap. -/
def wfStB (st : St) : Bool :=
  st.nodes.all fun nd => nd.children.all (· < st.nodes.length)

/-- Between two states, every function-valued property either survives
unchanged or has been overwritten by a non-function (string writes by
hooks only ever do the latter). -/
def propsFnStable (st st' : St) : Prop :=
  ∀ i k, asFn (lookupA (getN st' i).props k) = asFn (lookupA (getN st i).props k) ∨
    asFn (lookupA (getN st' i).props k) = none

/-- Postcondition of the shape-dispatch step of `addChildren` on a
non-sequence value: exactly one child `c` is appended to `el` (detached
from anywhere else it occurred), nothing else changes apart from fresh
allocations and the trace, and `c` realises the content `leafOut`
predicts. -/
def LeafPost (v : JSVal) (el : Nat) (st st' : St) (c : Nat) : Prop :=
  (∃ evs, st'.trace = st.trace ++ evs) ∧
  st.nodes.length ≤ st'.nodes.length ∧
  (c ∈ refsOf v ∨ st.nodes.length ≤ c) ∧
  ((∀ r ∈ refsOf v, r < st.nodes.length) → c < st'.nodes.length) ∧
  ((∀ i', leafOut v ≠ .useRef i') → st.nodes.length ≤ c ∧ c < st'.nodes.length) ∧
  getN st' el = { getN st el with children := (getN st el).children.filter (· ≠ c) ++ [c] } ∧
  (∀ j, j ≠ el → j < st.nodes.length →
    getN st' j = { getN st j with children := (getN st j).children.filter (· ≠ c) }) ∧
  (∀ j, st.nodes.length ≤ j → (getN st' j).children = []) ∧
  (∀ j, (getN st' j).props = (getN st j).props) ∧
  leafMatches st' v c ∧
  ((WfSt st ∧ ∀ r ∈ refsOf v, r < st.nodes.length) → WfSt st')

/-- A tiny concrete document: two sibling element nodes and an empty
trace, used to evaluate the engine on closed inputs. -/
def st₀ : St := { nodes := [elemNode "div", elemNode "span"], trace := [] }

/-- A nested heterogeneous sequence: `["a", ["b"]]`. -/
def vC3 : JSVal :=
  .arr (.cons (.str "a") (.cons (.arr (.cons (.str "b") .nil) .nil) .nil)) .nil

/-! ### Basic heap lemmas -/

theorem getD_set_self (l : List Node) (i : Nat) (nd d : Node) (h : i < l.length) :
    (l.set i nd).getD i d = nd := by
  induction l generalizing i with
  | nil => simp at h
  | cons a t ih =>
      cases i with
      | zero => rfl
      | succ n => exact ih n (by simpa using h)

theorem getD_set_ne (l : List Node) (i j : Nat) (nd d : Node) (h : j ≠ i) :
    (l.set i nd).getD j d = l.getD j d := by
  induction l generalizing i j with
  | nil => rfl
  | cons a t ih =>
      cases i with
      | zero =>
          cases j with
          | zero => exact absurd rfl h
          | succ m => rfl
      | succ n =>
          cases j with
          | zero => rfl
          | succ m => exact ih n m (fun hc => h (by omega))

theorem getD_map_children (l : List Node) (j : Nat) (f : List Nat → List Nat)
    (hf : f [] = []) :
    (l.map fun nd => { nd with children := f nd.children }).getD j {} =
      { l.getD j {} with children := f (l.getD j {}).children } := by
  induction l generalizing j with
  | nil => simp [List.getD, hf]
  | cons a t ih =>
      cases j with
      | zero => rfl
      | succ m => exact ih m

theorem getD_append_lt (l l' : List Node) (j : Nat) (d : Node) (h : j < l.length) :
    (l ++ l').getD j d = l.getD j d := by
  induction l generalizing j with
  | nil => simp at h
  | cons a t ih =>
      cases j with
      | zero => rfl
      | succ m => exact ih m (by simpa using h)

theorem getD_append_len (l l' : List Node) (d : Node) :
    (l ++ l').getD l.length d = l'.getD 0 d := by
  induction l with
  | nil => rfl
  | cons a t ih => simpa using ih

theorem getD_ge (l : List Node) (j : Nat) (d : Node) (h : l.length ≤ j) :
    l.getD j d = d := by
  induction l generalizing j with
  | nil => rfl
  | cons a t ih =>
      cases j with
      | zero => simp at h
      | succ m => exact ih m (by simpa using h)

theorem length_setNode (i : Nat) (nd : Node) (st : St) :
    (setNode i nd st).nodes.length = st.nodes.length := by
  simp [setNode]

theorem trace_setNode (i : Nat) (nd : Node) (st : St) :
    (setNode i nd st).trace = st.trace := rfl

theorem getN_setNode_self (i : Nat) (nd : Node) (st : St) (h : i < st.nodes.length) :
    getN (setNode i nd st) i = nd :=
  getD_set_self st.nodes i nd {} h

theorem getN_setNode_ne (i j : Nat) (nd : Node) (st : St) (h : j ≠ i) :
    getN (setNode i nd st) j = getN st j :=
  getD_set_ne st.nodes i j nd {} h

theorem getN_detach (c : Nat) (st : St) (j : Nat) :
    getN (detach c st) j =
      { getN st j with children := (getN st j).children.filter (· ≠ c) } :=
  getD_map_children st.nodes j (List.filter (· ≠ c)) rfl

theorem length_detach (c : Nat) (st : St) :
    (detach c st).nodes.length = st.nodes.length := by
  simp [detach]

theorem trace_detach (c : Nat) (st : St) : (detach c st).trace = st.trace := rfl

theorem getD_lt (l : List Node) (j : Nat) (d : Node) (h : j < l.length) :
    l.getD j d = l.get ⟨j, h⟩ := by
  induction l generalizing j with
  | nil => simp at h
  | cons a t ih =>
      cases j with
      | zero => rfl
      | succ m => exact ih m (by simpa using h)

theorem getN_ge (st : St) (j : Nat) (h : st.nodes.length ≤ j) :
    getN st j = {} :=
  getD_ge st.nodes j {} h

theorem mem_nodes_getN (st : St) (nd : Node) (h : nd ∈ st.nodes) :
    ∃ j, j < st.nodes.length ∧ getN st j = nd := by
  obtain ⟨⟨j, hj⟩, hget⟩ := List.mem_iff_get.mp h
  exact ⟨j, hj, by unfold getN; rw [getD_lt st.nodes j {} hj]; exact hget⟩

theorem getN_mem (st : St) (j : Nat) (h : j < st.nodes.length) :
    getN st j ∈ st.nodes := by
  unfold getN
  rw [getD_lt st.nodes j {} h]
  exact List.get_mem st.nodes j h

theorem unattached_iff (st : St) (c : Nat) :
    Unattached st c ↔ unattachedB st c = true := by
  unfold unattachedB
  rw [List.all_eq_true]
  constructor
  · intro h nd hnd
    obtain ⟨j, _, hget⟩ := mem_nodes_getN st nd hnd
    have := h j
    rw [hget] at this
    simpa using this
  · intro h j
    cases Nat.lt_or_ge j st.nodes.length with
    | inl hj =>
        have := h _ (getN_mem st j hj)
        simpa using this
    | inr hj => rw [getN_ge st j hj]; simp

theorem wfSt_iff (st : St) : WfSt st ↔ wfStB st = true := by
  unfold wfStB
  rw [List.all_eq_true]
  constructor
  · intro h nd hnd
    obtain ⟨j, _, hget⟩ := mem_nodes_getN st nd hnd
    rw [List.all_eq_true]
    intro c hc
    have := h j c (by rw [hget]; exact hc)
    simpa using this
  · intro h j c hc
    cases Nat.lt_or_ge j st.nodes.length with
    | inl hj =>
        have hmem := h _ (getN_mem st j hj)
        rw [List.all_eq_true] at hmem
        simpa using hmem c hc
    | inr hj => rw [getN_ge st j hj] at hc; simp at hc

theorem filter_ne_of_not_mem (l : List Nat) (c : Nat) (h : c ∉ l) :
    l.filter (· ≠ c) = l := by
  induction l with
  | nil => rfl
  | cons a t ih =>
      have hac : a ≠ c := fun hc => h (by simp [hc])
      have ht : c ∉ t := fun hc => h (by simp [hc])
      rw [List.filter_cons_of_pos (by simpa using hac), ih ht]

theorem map_detachFun_eq_self (c : Nat) (l : List Node)
    (h : ∀ nd ∈ l, c ∉ nd.children) :
    l.map (fun nd => { nd with children := nd.children.filter (· ≠ c) }) = l := by
  induction l with
  | nil => rfl
  | cons a t ih =>
      have ha : a.children.filter (· ≠ c) = a.children :=
        filter_ne_of_not_mem _ _ (h a (by simp))
      rw [List.map_cons, ha, ih (fun nd hnd => h nd (by simp [hnd]))]

theorem detach_eq_self (c : Nat) (st : St) (h : Unattached st c) :
    detach c st = st := by
  unfold detach
  rw [map_detachFun_eq_self c st.nodes]
  intro nd hnd
  obtain ⟨j, _, hget⟩ := mem_nodes_getN st nd hnd
  have := h j
  rwa [hget] at this

theorem appendChild_eq (el c : Nat) (st : St) (h : Unattached st c) :
    appendChild el c st =
      setNode el { getN st el with children := (getN st el).children ++ [c] } st := by
  unfold appendChild
  rw [detach_eq_self c st h]

theorem getN_trace (st : St) (t : List Event) (j : Nat) :
    getN { st with trace := t } j = getN st j := rfl

theorem getN_push_lt (st : St) (nd : Node) (j : Nat) (h : j < st.nodes.length) :
    getN { st with nodes := st.nodes ++ [nd] } j = getN st j :=
  getD_append_lt _ _ _ _ h

theorem getN_push_len (st : St) (nd : Node) :
    getN { st with nodes := st.nodes ++ [nd] } st.nodes.length = nd := by
  unfold getN
  simp [getD_append_len st.nodes [nd] {}]

theorem getN_push_gt (st : St) (nd : Node) (j : Nat) (h : st.nodes.length < j) :
    getN { st with nodes := st.nodes ++ [nd] } j = {} := by
  apply getN_ge
  simpa using h

/-- A freshly pushed childless node is unattached in the extended heap. -/
theorem unattached_push (st : St) (nd : Node) (hw : WfSt st) (hnd : nd.children = []) :
    Unattached { st with nodes := st.nodes ++ [nd] } st.nodes.length := by
  intro j
  rcases Nat.lt_trichotomy j st.nodes.length with hj | hj | hj
  · rw [getN_push_lt st nd j hj]
    intro hc
    exact absurd (hw j _ hc) (by omega)
  · subst hj
    rw [getN_push_len, hnd]
    simp
  · rw [getN_push_gt st nd j hj]
    simp

theorem lookupA_setAssoc (p : JSProps) (k k' : String) (v : JSVal) :
    lookupA (setAssoc p k v) k' = if k = k' then some v else lookupA p k' := by
  cases p with
  | nil => by_cases h : k = k' <;> simp [setAssoc, lookupA, h]
  | cons key val t =>
      have ih := lookupA_setAssoc t k k' v
      by_cases hkey : key = k
      · subst hkey
        by_cases h : key = k' <;> simp [setAssoc, lookupA, h]
      · by_cases h : k = k'
        · subst h
          simp [setAssoc, hkey, lookupA, ih]
        · simp [setAssoc, hkey, lookupA, ih, h]
termination_by sizeOf p

theorem propsFnStable_refl (st : St) : propsFnStable st st := fun _ _ => .inl rfl

theorem propsFnStable_trans {st st₁ st₂ : St}
    (h1 : propsFnStable st st₁) (h2 : propsFnStable st₁ st₂) : propsFnStable st st₂ := by
  intro i k
  rcases h2 i k with h | h
  · rw [h]; exact h1 i k
  · exact .inr h

theorem propsFnStable_of_propsEq {st st' : St}
    (h : ∀ j, (getN st' j).props = (getN st j).props) : propsFnStable st st' :=
  fun i k => .inl (by rw [h])

/-- Structural decomposition of `appendChild`: the child moves to the end
of `el`'s children and disappears from everywhere else; nothing but
children lists changes. -/
theorem appendChild_parts (el c : Nat) (st : St) (hel : el < st.nodes.length) :
    (appendChild el c st).nodes.length = st.nodes.length ∧
    (appendChild el c st).trace = st.trace ∧
    getN (appendChild el c st) el =
      { getN st el with children := (getN st el).children.filter (· ≠ c) ++ [c] } ∧
    (∀ j, j ≠ el →
      getN (appendChild el c st) j =
        { getN st j with children := (getN st j).children.filter (· ≠ c) }) ∧
    (∀ j, (getN (appendChild el c st) j).props = (getN st j).props) := by
  unfold appendChild
  have hdl : (detach c st).nodes.length = st.nodes.length := length_detach c st
  refine ⟨?_, ?_, ?_, ?_, ?_⟩
  · rw [length_setNode, hdl]
  · rw [trace_setNode, trace_detach]
  · rw [getN_setNode_self _ _ _ (by rw [hdl]; exact hel), getN_detach]
  · intro j hj
    rw [getN_setNode_ne _ _ _ _ hj, getN_detach]
  · intro j
    by_cases hj : j = el
    · subst hj
      rw [getN_setNode_self _ _ _ (by rw [hdl]; exact hel), getN_detach]
    · rw [getN_setNode_ne _ _ _ _ hj, getN_detach]

/-- `appendChild` of an unattached child: nothing changes except `el`
gaining the child at the end. -/
theorem appendChild_clean (el c : Nat) (st : St) (hel : el < st.nodes.length)
    (hu : Unattached st c) :
    (appendChild el c st).nodes.length = st.nodes.length ∧
    (appendChild el c st).trace = st.trace ∧
    getN (appendChild el c st) el =
      { getN st el with children := (getN st el).children ++ [c] } ∧
    (∀ j, j ≠ el → getN (appendChild el c st) j = getN st j) := by
  rw [appendChild_eq el c st hu]
  refine ⟨length_setNode _ _ _, trace_setNode _ _ _,
    getN_setNode_self _ _ _ hel, fun j hj => getN_setNode_ne _ _ _ _ hj⟩

/-- Appending a freshly created childless node to a well-formed heap. -/
theorem appendFresh_spec (el : Nat) (nd : Node) (st : St) (hw : WfSt st)
    (hel : el < st.nodes.length) (hnd : nd.children = []) (hp : nd.props = .nil) :
    (appendChild el st.nodes.length { st with nodes := st.nodes ++ [nd] }).nodes.length
        = st.nodes.length + 1 ∧
    (appendChild el st.nodes.length { st with nodes := st.nodes ++ [nd] }).trace = st.trace ∧
    getN (appendChild el st.nodes.length { st with nodes := st.nodes ++ [nd] }) el =
      { getN st el with children := (getN st el).children ++ [st.nodes.length] } ∧
    getN (appendChild el st.nodes.length { st with nodes := st.nodes ++ [nd] })
      st.nodes.length = nd ∧
    (∀ j, j ≠ el → j < st.nodes.length →
      getN (appendChild el st.nodes.length { st with nodes := st.nodes ++ [nd] }) j = getN st j) ∧
    (∀ j, st.nodes.length ≤ j →
      (getN (appendChild el st.nodes.length { st with nodes := st.nodes ++ [nd] }) j).children = [] ∧
      (getN (appendChild el st.nodes.length { st with nodes := st.nodes ++ [nd] }) j).props = .nil) ∧
    (∀ j, (getN (appendChild el st.nodes.length { st with nodes := st.nodes ++ [nd] }) j).props
        = (getN st j).props) ∧
    WfSt (appendChild el st.nodes.length { st with nodes := st.nodes ++ [nd] }) := by
  have hu : Unattached { st with nodes := st.nodes ++ [nd] } st.nodes.length :=
    unattached_push st nd hw hnd
  have hel₁ : el < ({ st with nodes := st.nodes ++ [nd] } : St).nodes.length := by
    simp; omega
  obtain ⟨hlen, htr, hgel, hother⟩ :=
    appendChild_clean el st.nodes.length { st with nodes := st.nodes ++ [nd] } hel₁ hu
  have hne : el ≠ st.nodes.length := by omega
  have hlen' : (appendChild el st.nodes.length { st with nodes := st.nodes ++ [nd] }).nodes.length
      = st.nodes.length + 1 := by
    rw [hlen]; simp
  refine ⟨hlen', htr, ?_, ?_, ?_, ?_, ?_, ?_⟩
  · rw [hgel, getN_push_lt st nd el hel]
  · rw [hother _ (by omega), getN_push_len]
  · intro j hj hjlt
    rw [hother _ hj, getN_push_lt st nd j hjlt]
  · intro j hj
    rcases Nat.eq_or_lt_of_le hj with hj' | hj'
    · rw [hother _ (by omega), ← hj', getN_push_len, hnd, hp]
      exact ⟨rfl, rfl⟩
    · rw [hother _ (by omega), getN_push_gt st nd j hj']
      exact ⟨rfl, rfl⟩
  · intro j
    by_cases hj : j = el
    · subst hj
      rw [hgel, getN_push_lt st nd j hel]
    · rw [hother _ hj]
      rcases Nat.lt_trichotomy j st.nodes.length with hlt | heq | hgt
      · rw [getN_push_lt st nd j hlt]
      · subst heq
        rw [getN_push_len, hp, getN_ge st _ (Nat.le_refl _)]
      · rw [getN_push_gt st nd j hgt, getN_ge st j (by omega)]
  · intro j c hc
    rw [hlen']
    by_cases hj : j = el
    · subst hj
      rw [hgel, getN_push_lt st nd j hel] at hc
      simp only [List.mem_append, List.mem_singleton] at hc
      rcases hc with hc | hc
      · exact Nat.lt_succ_of_lt (hw j c hc)
      · omega
    · rw [hother _ hj] at hc
      rcases Nat.lt_trichotomy j st.nodes.length with hlt | heq | hgt
      · rw [getN_push_lt st nd j hlt] at hc
        exact Nat.lt_succ_of_lt (hw j c hc)
      · subst heq
        rw [getN_push_len, hnd] at hc
        simp at hc
      · rw [getN_push_gt st nd j hgt] at hc
        simp [getN] at hc

theorem set_oob (l : List Node) (i : Nat) (nd : Node) (h : l.length ≤ i) :
    l.set i nd = l := by
  induction l generalizing i with
  | nil => rfl
  | cons a t ih =>
      cases i with
      | zero => simp at h
      | succ m => simp [List.set, ih m (by simpa using h)]

/-- Effect envelope of a non-throwing caller-supplied function: it records
exactly one trace event, can only grow the heap, never touches any node's
children, changes at most `arg`'s properties among existing nodes, and
keeps function-valued properties stable. -/
theorem runFn_spec (f : Fn) (arg : Nat) (st : St) (hnr : nonRaising f.body = true) :
    ∃ r st', runFn f arg st = .ok (r, st') ∧
      st'.trace = st.trace ++ [Event.call f.id arg (getN st arg).children] ∧
      st.nodes.length ≤ st'.nodes.length ∧
      (∀ j, (getN st' j).children = (getN st j).children) ∧
      (∀ j, j ≠ arg → j < st.nodes.length → getN st' j = getN st j) ∧
      (arg < st.nodes.length → ∃ p, getN st' arg = { getN st arg with props := p }) ∧
      (∀ j, st.nodes.length ≤ j → (getN st' j).children = [] ∧ (getN st' j).props = .nil) ∧
      propsFnStable st st' ∧
      (WfSt st → WfSt st') := by
  have hoob : ∀ j, st.nodes.length ≤ j → (getN st j).children = [] ∧ (getN st j).props = .nil :=
    fun j hj => by rw [getN_ge st j hj]; exact ⟨rfl, rfl⟩
  unfold runFn
  cases hb : f.body with
  | raise msg => rw [hb] at hnr; simp [nonRaising] at hnr
  | ret =>
      exact ⟨.undef, _, rfl, rfl, Nat.le_refl _, fun j => rfl, fun j _ _ => rfl,
        fun _ => ⟨(getN st arg).props, rfl⟩, hoob, propsFnStable_refl _, fun hw => hw⟩
  | retNode i =>
      exact ⟨.nodeRef i, _, rfl, rfl, Nat.le_refl _, fun j => rfl, fun j _ _ => rfl,
        fun _ => ⟨(getN st arg).props, rfl⟩, hoob, propsFnStable_refl _, fun hw => hw⟩
  | retStr s =>
      exact ⟨.str s, _, rfl, rfl, Nat.le_refl _, fun j => rfl, fun j _ _ => rfl,
        fun _ => ⟨(getN st arg).props, rfl⟩, hoob, propsFnStable_refl _, fun hw => hw⟩
  | retNewElem tag =>
      refine ⟨_, _, rfl, rfl, by simp [getN], ?_, ?_, ?_, ?_, ?_, ?_⟩ <;>
        simp only [getN]
      · intro j
        rcases Nat.lt_trichotomy j st.nodes.length with hj | hj | hj
        · rw [getD_append_lt _ _ _ _ hj]
        · subst hj
          rw [getD_append_len st.nodes [elemNode tag] {}, getD_ge st.nodes st.nodes.length {} (Nat.le_refl _)]
          rfl
        · rw [getD_ge (st.nodes ++ [elemNode tag]) j {} (by simp; omega), getD_ge st.nodes j {} (by omega)]
      · intro j _ hj
        rw [getD_append_lt _ _ _ _ hj]
      · intro harg
        exact ⟨(getN st arg).props, by
          simp only [getN]
          rw [getD_append_lt _ _ _ _ harg]⟩
      · intro j hj
        rcases Nat.eq_or_lt_of_le hj with hj' | hj'
        · rw [← hj', getD_append_len st.nodes [elemNode tag] {}]
          exact ⟨rfl, rfl⟩
        · rw [getD_ge (st.nodes ++ [elemNode tag]) j {} (by simp; omega)]
          exact ⟨rfl, rfl⟩
      · apply propsFnStable_of_propsEq
        intro j
        simp only [getN]
        rcases Nat.lt_trichotomy j st.nodes.length with hj | hj | hj
        · rw [getD_append_lt _ _ _ _ hj]
        · subst hj
          rw [getD_append_len st.nodes [elemNode tag] {}, getD_ge st.nodes st.nodes.length {} (Nat.le_refl _)]
          rfl
        · rw [getD_ge (st.nodes ++ [elemNode tag]) j {} (by simp; omega), getD_ge st.nodes j {} (by omega)]
      · intro hw j c hc
        simp only [getN] at hc
        simp only [List.length_append, List.length_cons, List.length_nil]
        rcases Nat.lt_trichotomy j st.nodes.length with hj | hj | hj
        · rw [getD_append_lt _ _ _ _ hj] at hc
          have := hw j c hc
          omega
        · subst hj
          rw [getD_append_len st.nodes [elemNode tag] {}] at hc
          simp [elemNode] at hc
        · rw [getD_ge (st.nodes ++ [elemNode tag]) j {} (by simp; omega)] at hc
          simp at hc
  | setStrProp k v =>
      by_cases harg : arg < st.nodes.length
      · refine ⟨.undef, _, rfl, by rw [trace_setNode], by rw [length_setNode], ?_, ?_, ?_, ?_, ?_, ?_⟩
        · intro j
          by_cases hj : j = arg
          · subst hj
            rw [getN_setNode_self _ _ _ (by simpa using harg)]
            rfl
          · rw [getN_setNode_ne _ _ _ _ hj, getN_trace]
        · intro j hj _
          rw [getN_setNode_ne _ _ _ _ hj, getN_trace]
        · intro _
          exact ⟨_, by rw [getN_setNode_self _ _ _ (by simpa using harg), getN_trace]⟩
        · intro j hj
          rw [getN_setNode_ne _ _ _ _ (by omega), getN_trace, getN_ge st j hj]
          exact ⟨rfl, rfl⟩
        · intro i k'
          by_cases hi : i = arg
          · subst hi
            rw [getN_setNode_self _ _ _ (by simpa using harg), getN_trace]
            simp only [lookupA_setAssoc]
            by_cases hk : k = k'
            · subst hk
              simp [asFn]
            · simp [hk]
          · rw [getN_setNode_ne _ _ _ _ hi, getN_trace]
            exact .inl rfl
        · intro hw j c hc
          rw [length_setNode]
          by_cases hj : j = arg
          · subst hj
            rw [getN_setNode_self _ _ _ (by simpa using harg)] at hc
            exact hw j c hc
          · rw [getN_setNode_ne _ _ _ _ hj, getN_trace] at hc
            exact hw j c hc
      · have hset : ∀ nd : Node,
            setNode arg nd { st with trace := st.trace ++ [Event.call f.id arg (getN st arg).children] } =
              { st with trace := st.trace ++ [Event.call f.id arg (getN st arg).children] } := by
          intro nd
          unfold setNode
          rw [set_oob _ _ _ (by simpa using Nat.le_of_not_lt harg)]
        refine ⟨.undef, _, rfl, ?_, ?_, ?_, ?_, ?_, ?_, ?_, ?_⟩ <;>
          rw [hset]
        · exact fun j => rfl
        · exact fun j _ _ => rfl
        · exact fun h => absurd h harg
        · exact hoob
        · exact fun i k => .inl rfl
        · exact fun hw => hw

/-- Effect envelope of running an optional benign hook. -/
theorem runHook_spec (h : Option Fn) (arg : Nat) (st : St) (hok : hookOk h = true) :
    ∃ st', runHook h arg st = .ok st' ∧
      (∃ evs, st'.trace = st.trace ++ evs) ∧
      st.nodes.length ≤ st'.nodes.length ∧
      (∀ j, (getN st' j).children = (getN st j).children) ∧
      (∀ j, j ≠ arg → j < st.nodes.length → getN st' j = getN st j) ∧
      (arg < st.nodes.length → ∃ p, getN st' arg = { getN st arg with props := p }) ∧
      (∀ j, st.nodes.length ≤ j → (getN st' j).children = [] ∧ (getN st' j).props = .nil) ∧
      propsFnStable st st' ∧
      (WfSt st → WfSt st') := by
  cases h with
  | none =>
      refine ⟨st, rfl, ⟨[], by rw [List.append_nil]⟩, Nat.le_refl _, fun j => rfl,
        fun j _ _ => rfl, fun _ => ⟨(getN st arg).props, rfl⟩, ?_, propsFnStable_refl _,
        fun hw => hw⟩
      intro j hj
      rw [getN_ge st j hj]
      exact ⟨rfl, rfl⟩
  | some f =>
      obtain ⟨r, st', heq, htr, hlen, hch, hfr, hprops, hoob, hstable, hwf⟩ :=
        runFn_spec f arg st (by simpa [hookOk] using hok)
      refine ⟨st', ?_, ⟨_, htr⟩, hlen, hch, hfr, hprops, hoob, hstable, hwf⟩
      unfold runHook
      simp only [heq]

/-- `appendChild` keeps the heap well-formed whenever the appended id is in
range. -/
theorem wf_appendChild (el c : Nat) (st : St) (hw : WfSt st) (hc : c < st.nodes.length) :
    WfSt (appendChild el c st) := by
  have hlen : (appendChild el c st).nodes.length = st.nodes.length := by
    unfold appendChild
    rw [length_setNode, length_detach]
  intro j d hd
  rw [hlen]
  unfold appendChild at hd
  by_cases hj : j = el
  · subst hj
    by_cases hjl : j < st.nodes.length
    · rw [getN_setNode_self _ _ _ (by rw [length_detach]; exact hjl), getN_detach] at hd
      rcases List.mem_append.mp hd with hd | hd
      · exact hw j d (List.mem_of_mem_filter hd)
      · rw [List.mem_singleton.mp hd]
        exact hc
    · rw [show setNode j { getN (detach c st) j with children := (getN (detach c st) j).children ++ [c] } (detach c st)
          = detach c st from by
            unfold setNode
            rw [set_oob _ _ _ (by rw [length_detach]; omega)], getN_detach] at hd
      exact hw j d (List.mem_of_mem_filter hd)
  · rw [getN_setNode_ne _ _ _ _ hj, getN_detach] at hd
    exact hw j d (List.mem_of_mem_filter hd)

/-- Structural analysis of appending a freshly created childless,
property-free node (text, comment, or producer-created element). -/
theorem appendFreshParts (el : Nat) (nd : Node) (st : St) (hel : el < st.nodes.length)
    (hnd : nd.children = []) (hp : nd.props = .nil) :
    (appendChild el st.nodes.length { st with nodes := st.nodes ++ [nd] }).nodes.length
        = st.nodes.length + 1 ∧
    (appendChild el st.nodes.length { st with nodes := st.nodes ++ [nd] }).trace = st.trace ∧
    getN (appendChild el st.nodes.length { st with nodes := st.nodes ++ [nd] }) el =
      { getN st el with children :=
          (getN st el).children.filter (· ≠ st.nodes.length) ++ [st.nodes.length] } ∧
    (∀ j, j ≠ el → j < st.nodes.length →
      getN (appendChild el st.nodes.length { st with nodes := st.nodes ++ [nd] }) j =
        { getN st j with children := (getN st j).children.filter (· ≠ st.nodes.length) }) ∧
    getN (appendChild el st.nodes.length { st with nodes := st.nodes ++ [nd] })
        st.nodes.length = nd ∧
    (∀ j, st.nodes.length ≤ j →
      (getN (appendChild el st.nodes.length { st with nodes := st.nodes ++ [nd] }) j).children
        = []) ∧
    (∀ j, (getN (appendChild el st.nodes.length { st with nodes := st.nodes ++ [nd] }) j).props
        = (getN st j).props) ∧
    (WfSt st → WfSt (appendChild el st.nodes.length { st with nodes := st.nodes ++ [nd] })) := by
  have hel₁ : el < ({ st with nodes := st.nodes ++ [nd] } : St).nodes.length := by
    simp
    omega
  obtain ⟨hlen, htr, hgel, hother, hprops⟩ :=
    appendChild_parts el st.nodes.length { st with nodes := st.nodes ++ [nd] } hel₁
  have hne : st.nodes.length ≠ el := by omega
  have hgfresh : getN (appendChild el st.nodes.length { st with nodes := st.nodes ++ [nd] })
      st.nodes.length = nd := by
    rw [hother _ hne, getN_push_len]
    have hflt : nd.children.filter (· ≠ st.nodes.length) = nd.children := by
      rw [hnd]
      rfl
    rw [hflt]
  refine ⟨by rw [hlen]; simp, htr, ?_, ?_, hgfresh, ?_, ?_, ?_⟩
  · rw [hgel, getN_push_lt st nd el hel]
  · intro j hj hjl
    rw [hother _ hj, getN_push_lt st nd j hjl]
  · intro j hj
    rcases Nat.eq_or_lt_of_le hj with hj' | hj'
    · rw [← hj', hgfresh, hnd]
    · rw [hother _ (by omega), getN_push_gt st nd j hj']
      rfl
  · intro j
    by_cases hj : j = el
    · subst hj
      rw [hgel, getN_push_lt st nd j hel]
    · rw [hother _ hj]
      rcases Nat.lt_trichotomy j st.nodes.length with hlt | heq | hgt
      · rw [getN_push_lt st nd j hlt]
      · rw [heq, getN_push_len, hp, getN_ge st _ (Nat.le_refl _)]
      · rw [getN_push_gt st nd j hgt, getN_ge st j (by omega)]
  · intro hw
    have hwP : WfSt ({ st with nodes := st.nodes ++ [nd] } : St) := by
      intro j c hc
      simp only [List.length_append, List.length_cons, List.length_nil]
      rcases Nat.lt_trichotomy j st.nodes.length with hlt | heq | hgt
      · rw [getN_push_lt st nd j hlt] at hc
        have := hw j c hc
        omega
      · rw [heq, getN_push_len, hnd] at hc
        simp at hc
      · rw [getN_push_gt st nd j hgt] at hc
        simp at hc
    exact wf_appendChild el st.nodes.length _ hwP (by simp)

/-- Pushing a childless node preserves heap well-formedness. -/
theorem wf_push (st : St) (nd : Node) (hw : WfSt st) (hnd : nd.children = []) :
    WfSt ({ st with nodes := st.nodes ++ [nd] } : St) := by
  intro j c hc
  simp only [List.length_append, List.length_cons, List.length_nil]
  rcases Nat.lt_trichotomy j st.nodes.length with hlt | heq | hgt
  · rw [getN_push_lt st nd j hlt] at hc
    have := hw j c hc
    omega
  · rw [heq, getN_push_len, hnd] at hc
    simp at hc
  · rw [getN_push_gt st nd j hgt] at hc
    simp at hc

theorem getD_append_ge (l l' : List Node) (k : Nat) (d : Node) :
    (l ++ l').getD (l.length + k) d = l'.getD k d := by
  induction l with
  | nil => simp [Nat.zero_add]
  | cons a t ih => simpa [Nat.succ_add] using ih

theorem getD_mem_or (l : List Node) (k : Nat) (d : Node) :
    l.getD k d = d ∨ l.getD k d ∈ l := by
  induction l generalizing k with
  | nil => exact .inl rfl
  | cons a t ih =>
      cases k with
      | zero => exact .inr (by simp [List.getD])
      | succ m =>
          rcases ih m with h | h
          · exact .inl h
          · exact .inr (by simp [List.getD] at h ⊢; exact .inr h)

/-- Extending the heap with childless nodes preserves well-formedness. -/
theorem wf_append_ext (st : St) (ext : List Node) (hw : WfSt st)
    (hext : ∀ nd ∈ ext, nd.children = []) :
    WfSt ({ st with nodes := st.nodes ++ ext } : St) := by
  intro j c hc
  simp only [List.length_append]
  rcases Nat.lt_or_ge j st.nodes.length with hj | hj
  · rw [show getN { st with nodes := st.nodes ++ ext } j = getN st j from
      getD_append_lt _ _ _ _ hj] at hc
    have := hw j c hc
    omega
  · obtain ⟨k, rfl⟩ := Nat.exists_eq_add_of_le hj
    rw [show getN { st with nodes := st.nodes ++ ext } (st.nodes.length + k)
        = ext.getD k {} from getD_append_ge _ _ _ _] at hc
    rcases getD_mem_or ext k {} with h | h
    · rw [h] at hc
      simp at hc
    · rw [hext _ h] at hc
      simp at hc

/-- `LeafPost` for the pattern "allocate a fresh childless node at the top
of the heap and append it", starting from a base that extends `st` by
trace events and orphan childless allocations. -/
theorem leafPost_fresh (v : JSVal) (el : Nat) (st stT : St) (nd : Node) (ext : List Node)
    (hT : stT.nodes = st.nodes ++ ext)
    (hext : ∀ nd' ∈ ext, nd'.children = [] ∧ nd'.props = .nil)
    (htr : ∃ evs, stT.trace = st.trace ++ evs)
    (hel : el < st.nodes.length) (hnd : nd.children = []) (hp : nd.props = .nil)
    (hout : (leafOut v = .newText nd.content ∧ nd.kind = .text) ∨
            (leafOut v = .newComment nd.content ∧ nd.kind = .comment) ∨
            (leafOut v = .newElem nd.tag ∧ nd.kind = .element)) :
    LeafPost v el st
      (appendChild el stT.nodes.length { stT with nodes := stT.nodes ++ [nd] })
      stT.nodes.length := by
  have hlenT : stT.nodes.length = st.nodes.length + ext.length := by
    rw [hT, List.length_append]
  have helT : el < stT.nodes.length := by omega
  have hgT_lt : ∀ j, j < st.nodes.length → getN stT j = getN st j := by
    intro j hj
    show stT.nodes.getD j {} = st.nodes.getD j {}
    rw [hT, getD_append_lt _ _ _ _ hj]
  have hgT_ext : ∀ j, st.nodes.length ≤ j → (getN stT j).children = [] ∧ (getN stT j).props = .nil := by
    intro j hj
    obtain ⟨k, rfl⟩ := Nat.exists_eq_add_of_le hj
    have : getN stT (st.nodes.length + k) = ext.getD k {} := by
      show stT.nodes.getD _ {} = _
      rw [hT, getD_append_ge]
    rw [this]
    rcases getD_mem_or ext k {} with h | h
    · rw [h]
      exact ⟨rfl, rfl⟩
    · exact hext _ h
  obtain ⟨hlen, htrr, hgel, hfr, hgfresh, hfresh, hprops, hwf⟩ :=
    appendFreshParts el nd stT helT hnd hp
  refine ⟨⟨_, by rw [htrr]; exact htr.choose_spec⟩, by omega, .inr (by omega),
    fun _ => by omega, fun _ => ⟨by omega, by omega⟩, ?_, ?_, ?_, ?_, ?_, ?_⟩
  · rw [hgel, hgT_lt el hel]
  · intro j hj hjl
    rw [hfr j hj (by omega), hgT_lt j hjl]
  · intro j hj
    rcases Nat.lt_or_ge j stT.nodes.length with hjT | hjT
    · rw [hfr j (by omega) hjT]
      simp only [(hgT_ext j hj).1]
      rfl
    · exact hfresh j hjT
  · intro j
    rw [hprops j]
    rcases Nat.lt_or_ge j st.nodes.length with hj | hj
    · rw [hgT_lt j hj]
    · rw [(hgT_ext j hj).2, getN_ge st j hj]
  · rcases hout with ⟨hlo, hk⟩ | ⟨hlo, hk⟩ | ⟨hlo, hk⟩ <;>
      · unfold leafMatches
        rw [hlo]
        rw [hgfresh]
        exact ⟨hk, rfl, hnd⟩
  · rintro ⟨hw, _⟩
    apply hwf
    have : WfSt ({ st with nodes := st.nodes ++ ext } : St) :=
      wf_append_ext st ext hw (fun nd' h => (hext nd' h).1)
    intro j c hc
    rw [hlenT]
    have hc' : c ∈ (getN ({ st with nodes := st.nodes ++ ext } : St) j).children := by
      rw [show getN ({ st with nodes := st.nodes ++ ext } : St) j = getN stT j from by
        show _ = stT.nodes.getD j {}
        rw [hT]
        rfl]
      exact hc
    have := this j c hc'
    simp only [List.length_append] at this
    omega

theorem getN_nodesEq {st st' : St} (h : st'.nodes = st.nodes) (j : Nat) :
    getN st' j = getN st j := by
  show st'.nodes.getD j {} = st.nodes.getD j {}
  rw [h]

theorem trace_appendChild (el c : Nat) (st : St) :
    (appendChild el c st).trace = st.trace := by
  unfold appendChild
  rw [trace_setNode, trace_detach]

theorem length_appendChild (el c : Nat) (st : St) :
    (appendChild el c st).nodes.length = st.nodes.length := by
  unfold appendChild
  rw [length_setNode, length_detach]

/-- `LeafPost` for the pattern "append an existing node by reference". -/
theorem leafPost_ref (v : JSVal) (el : Nat) (st stT : St) (i : Nat)
    (hT : stT.nodes = st.nodes)
    (htr : ∃ evs, stT.trace = st.trace ++ evs)
    (hel : el < st.nodes.length)
    (hlo : leafOut v = .useRef i)
    (hrf : refsOf v = [i]) :
    LeafPost v el st (appendChild el i stT) i := by
  have helT : el < stT.nodes.length := by rw [hT]; exact hel
  obtain ⟨hlen, htrr, hgel, hother, hprops⟩ := appendChild_parts el i stT helT
  have hmem : i ∈ refsOf v := by rw [hrf]; exact List.mem_singleton.mpr rfl
  refine ⟨⟨_, by rw [trace_appendChild]; exact htr.choose_spec⟩,
    by rw [length_appendChild, hT], .inl hmem,
    fun h => by rw [length_appendChild, hT]; exact h i hmem,
    fun h => absurd hlo (h i), ?_, ?_, ?_, ?_, ?_, ?_⟩
  · rw [hgel, getN_nodesEq hT el]
  · intro j hj _
    rw [hother j hj, getN_nodesEq hT j]
  · intro j hj
    by_cases hje : j = el
    · omega
    · rw [hother j hje, getN_nodesEq hT j, getN_ge st j hj]
      rfl
  · intro j
    rw [hprops j, getN_nodesEq hT j]
  · unfold leafMatches
    rw [hlo]
  · rintro ⟨hw, hr⟩
    apply wf_appendChild el i stT _ (by rw [hT]; exact hr i hmem)
    intro j c hc
    rw [hT]
    exact hw j c (by rw [← getN_nodesEq hT j]; exact hc)

/-- Shape dispatch of `addChildren` on a non-sequence benign value: some
single child is appended, as characterised by `LeafPost`. -/
theorem appendLeaf_spec (v : JSVal) (el : Nat) (st : St)
    (hna : isArr v = false) (hb : benign st v = true) (hel : el < st.nodes.length) :
    ∃ st' c, appendLeaf v el st = .ok st' ∧ LeafPost v el st st' c := by
  cases v with
  | arr xs ps => simp [isArr] at hna
  | undef =>
      exact ⟨_, _, rfl,
        leafPost_fresh .undef el st st (commentNode "undefined") []
          (List.append_nil _).symm (fun _ h => absurd h (List.not_mem_nil _))
          ⟨[], (List.append_nil _).symm⟩ hel rfl rfl (.inr (.inl ⟨rfl, rfl⟩))⟩
  | null =>
      exact ⟨_, _, rfl,
        leafPost_fresh .null el st st (commentNode "null") []
          (List.append_nil _).symm (fun _ h => absurd h (List.not_mem_nil _))
          ⟨[], (List.append_nil _).symm⟩ hel rfl rfl (.inr (.inl ⟨rfl, rfl⟩))⟩
  | bool b =>
      exact ⟨_, _, rfl,
        leafPost_fresh (.bool b) el st st (textNode (jsToString (.bool b))) []
          (List.append_nil _).symm (fun _ h => absurd h (List.not_mem_nil _))
          ⟨[], (List.append_nil _).symm⟩ hel rfl rfl (.inl ⟨rfl, rfl⟩)⟩
  | num n =>
      exact ⟨_, _, rfl,
        leafPost_fresh (.num n) el st st (textNode (jsToString (.num n))) []
          (List.append_nil _).symm (fun _ h => absurd h (List.not_mem_nil _))
          ⟨[], (List.append_nil _).symm⟩ hel rfl rfl (.inl ⟨rfl, rfl⟩)⟩
  | str s =>
      exact ⟨_, _, rfl,
        leafPost_fresh (.str s) el st st (textNode (jsToString (.str s))) []
          (List.append_nil _).symm (fun _ h => absurd h (List.not_mem_nil _))
          ⟨[], (List.append_nil _).symm⟩ hel rfl rfl (.inl ⟨rfl, rfl⟩)⟩
  | func fn =>
      exact ⟨_, _, rfl,
        leafPost_fresh (.func fn) el st st (textNode (jsToString (.func fn))) []
          (List.append_nil _).symm (fun _ h => absurd h (List.not_mem_nil _))
          ⟨[], (List.append_nil _).symm⟩ hel rfl rfl (.inl ⟨rfl, rfl⟩)⟩
  | nodeRef i =>
      exact ⟨_, _, rfl,
        leafPost_ref (.nodeRef i) el st st i rfl ⟨[], (List.append_nil _).symm⟩ hel rfl rfl⟩
  | obj fields =>
      rcases hte : asFn (lookupA fields "toElement") with _ | f
      · rcases hts : lookupA fields "toString" with _ | w
        · have hts2 : asFn (lookupA fields "toString") = none := by
            rw [hts]
            rfl
          refine ⟨_, _, ?_, leafPost_fresh (.obj fields) el st st (textNode "[object Object]") []
            (List.append_nil _).symm (fun _ h => absurd h (List.not_mem_nil _))
            ⟨[], (List.append_nil _).symm⟩ hel rfl rfl
            (.inl ⟨by simp [leafOut, hte, hts2, textNode], rfl⟩)⟩
          simp [appendLeaf, hte, hts, appendNewText]
        · cases w with
          | func g =>
              have hsOk : strBodyOk g.body = true := by
                simp only [benign, hte, hts, Bool.and_eq_true] at hb
                exact hb.2
              have hts2 : asFn (lookupA fields "toString") = some g := by
                rw [hts]
                rfl
              cases hbody : g.body with
              | raise msg => rw [hbody] at hsOk; simp [strBodyOk] at hsOk
              | retNode jn => rw [hbody] at hsOk; simp [strBodyOk] at hsOk
              | retNewElem t => rw [hbody] at hsOk; simp [strBodyOk] at hsOk
              | ret =>
                  refine ⟨_, _, ?_, leafPost_fresh (.obj fields) el st
                    { st with trace := st.trace ++ [Event.call0 g.id] }
                    (textNode (jsToString .undef)) [] (List.append_nil _).symm
                    (fun _ h => absurd h (List.not_mem_nil _)) ⟨_, rfl⟩ hel rfl rfl
                    (.inl ⟨by simp [leafOut, hte, hts2, hbody, toStringOut, textNode, jsToString],
                      rfl⟩)⟩
                  simp [appendLeaf, hte, hts, runFn0, hbody, appendNewText]
              | setStrProp k w' =>
                  refine ⟨_, _, ?_, leafPost_fresh (.obj fields) el st
                    { st with trace := st.trace ++ [Event.call0 g.id] }
                    (textNode (jsToString .undef)) [] (List.append_nil _).symm
                    (fun _ h => absurd h (List.not_mem_nil _)) ⟨_, rfl⟩ hel rfl rfl
                    (.inl ⟨by simp [leafOut, hte, hts2, hbody, toStringOut, textNode, jsToString],
                      rfl⟩)⟩
                  simp [appendLeaf, hte, hts, runFn0, hbody, appendNewText]
              | retStr s =>
                  refine ⟨_, _, ?_, leafPost_fresh (.obj fields) el st
                    { st with trace := st.trace ++ [Event.call0 g.id] }
                    (textNode (jsToString (.str s))) [] (List.append_nil _).symm
                    (fun _ h => absurd h (List.not_mem_nil _)) ⟨_, rfl⟩ hel rfl rfl
                    (.inl ⟨by simp [leafOut, hte, hts2, hbody, toStringOut, textNode, jsToString],
                      rfl⟩)⟩
                  simp [appendLeaf, hte, hts, runFn0, hbody, appendNewText]
          | undef => simp [benign, hte, hts] at hb
          | null => simp [benign, hte, hts] at hb
          | bool b => simp [benign, hte, hts] at hb
          | num n => simp [benign, hte, hts] at hb
          | str s => simp [benign, hte, hts] at hb
          | arr xs ps => simp [benign, hte, hts] at hb
          | obj fields2 => simp [benign, hte, hts] at hb
          | nodeRef i => simp [benign, hte, hts] at hb
      · have hbodyOk : (match f.body with
            | FnBody.retNewElem _ => true
            | FnBody.retNode _ => true
            | _ => false) = true := by
          simp only [benign, hte, Bool.and_eq_true] at hb
          exact hb.2
        cases hbody : f.body with
        | ret => rw [hbody] at hbodyOk; simp at hbodyOk
        | raise msg => rw [hbody] at hbodyOk; simp at hbodyOk
        | setStrProp k w => rw [hbody] at hbodyOk; simp at hbodyOk
        | retStr s => rw [hbody] at hbodyOk; simp at hbodyOk
        | retNode jn =>
            refine ⟨_, _, ?_, leafPost_ref (.obj fields) el st
              { st with trace := st.trace ++ [Event.call0 f.id] } jn rfl ⟨_, rfl⟩ hel
              (by simp [leafOut, hte, hbody]) (by simp [refsOf, refOf, leafOut, hte, hbody])⟩
            simp [appendLeaf, hte, runFn0, hbody, appendNewText]
        | retNewElem t =>
            refine ⟨_, _, ?_, leafPost_fresh (.obj fields) el st
              { st with trace := st.trace ++ [Event.call0 f.id] }
              (elemNode t) [] (List.append_nil _).symm
              (fun _ h => absurd h (List.not_mem_nil _)) ⟨_, rfl⟩ hel rfl rfl
              (.inr (.inr ⟨by simp [leafOut, hte, hbody, elemNode], rfl⟩))⟩
            simp [appendLeaf, hte, runFn0, hbody, appendNewText]

/-- A benign non-sequence value has benign hooks, and its `onappend` hook
stays benign across any run that only overwrites properties with
non-functions. -/
theorem benign_hooks (st : St) (v : JSVal) (hna : isArr v = false)
    (hb : benign st v = true) :
    hookOk (hookProp st v "onbeforeappend") = true ∧
    (∀ st₂, propsFnStable st st₂ → hookOk (hookProp st₂ v "onappend") = true) := by
  cases v with
  | arr xs ps => simp [isArr] at hna
  | obj fields =>
      simp only [benign, Bool.and_eq_true] at hb
      exact ⟨hb.1.1, fun _ _ => hb.1.2⟩
  | nodeRef i =>
      simp only [benign, Bool.and_eq_true] at hb
      refine ⟨hb.1, ?_⟩
      intro st₂ hst
      show hookOk (asFn (lookupA (getN st₂ i).props "onappend")) = true
      rcases hst i "onappend" with h | h
      · rw [h]
        exact hb.2
      · rw [h]
        rfl
  | undef => exact ⟨rfl, fun _ _ => rfl⟩
  | null => exact ⟨rfl, fun _ _ => rfl⟩
  | bool b => exact ⟨rfl, fun _ _ => rfl⟩
  | num n => exact ⟨rfl, fun _ _ => rfl⟩
  | str s => exact ⟨rfl, fun _ _ => rfl⟩
  | func fn => exact ⟨rfl, fun _ _ => rfl⟩

/-- Benignness of a non-sequence value survives property-stable state
evolution. -/
theorem benign_mono_leaf (st st₂ : St) (v : JSVal) (hna : isArr v = false)
    (hst : propsFnStable st st₂) (hb : benign st v = true) : benign st₂ v = true := by
  cases v with
  | arr xs ps => simp [isArr] at hna
  | obj fields => exact hb
  | nodeRef i =>
      simp only [benign, Bool.and_eq_true] at hb ⊢
      constructor
      · rcases hst i "onbeforeappend" with h | h
        · show hookOk (asFn (lookupA (getN st₂ i).props "onbeforeappend")) = true
          rw [h]
          exact hb.1
        · show hookOk (asFn (lookupA (getN st₂ i).props "onbeforeappend")) = true
          rw [h]
          rfl
      · rcases hst i "onappend" with h | h
        · show hookOk (asFn (lookupA (getN st₂ i).props "onappend")) = true
          rw [h]
          exact hb.2
        · show hookOk (asFn (lookupA (getN st₂ i).props "onappend")) = true
          rw [h]
          rfl
  | undef => rfl
  | null => rfl
  | bool b => rfl
  | num n => rfl
  | str s => rfl
  | func fn => rfl

/-- `addChildren` on a non-sequence value: hooks around the leaf append. -/
theorem addChildren_nonarr_eq (v : JSVal) (el : Nat) (st : St) (hna : isArr v = false) :
    addChildren v el st =
      (match runHook (if truthy v then hookProp st v "onbeforeappend" else none) el st with
       | .error e => .error e
       | .ok st₁ =>
         match appendLeaf v el st₁ with
         | .error e => .error e
         | .ok st₂ =>
             runHook (if truthy v then hookProp st₂ v "onappend" else none) el st₂) := by
  cases v <;> first | rfl | simp [isArr] at hna

/-- `leafMatches` transports along a later state that does not disturb the
appended node. -/
theorem leafMatches_transport {st₂ st₃ : St} {v : JSVal} {c : Nat}
    (h : (∀ i', leafOut v ≠ .useRef i') → getN st₃ c = getN st₂ c)
    (hm : leafMatches st₂ v c) : leafMatches st₃ v c := by
  cases hlo : leafOut v with
  | useRef i =>
      simp only [leafMatches, hlo] at hm ⊢
      exact hm
  | newText s =>
      simp only [leafMatches, hlo] at hm ⊢
      rw [h (fun i' hh => by rw [hlo] at hh; cases hh)]
      exact hm
  | newComment s =>
      simp only [leafMatches, hlo] at hm ⊢
      rw [h (fun i' hh => by rw [hlo] at hh; cases hh)]
      exact hm
  | newElem t =>
      simp only [leafMatches, hlo] at hm ⊢
      rw [h (fun i' hh => by rw [hlo] at hh; cases hh)]
      exact hm

/-- `addChildren` on a benign non-sequence value: the hooks wrap the shape
dispatch, one child is appended, and everything else is preserved up to
property writes and fresh allocations. -/
theorem addChildren_leaf (v : JSVal) (el : Nat) (st : St)
    (hna : isArr v = false) (hb : benign st v = true) (hel : el < st.nodes.length) :
    ∃ st' c, addChildren v el st = .ok st' ∧
      (∃ evs, st'.trace = st.trace ++ evs) ∧
      st.nodes.length ≤ st'.nodes.length ∧
      (c ∈ refsOf v ∨ st.nodes.length ≤ c) ∧
      ((∀ r ∈ refsOf v, r < st.nodes.length) → c < st'.nodes.length) ∧
      (getN st' el).children = (getN st el).children.filter (· ≠ c) ++ [c] ∧
      (∀ j, j ≠ el → j < st.nodes.length →
        getN st' j = { getN st j with children := (getN st j).children.filter (· ≠ c) }) ∧
      (∀ j, st.nodes.length ≤ j → (getN st' j).children = []) ∧
      propsFnStable st st' ∧
      leafMatches st' v c ∧
      ((WfSt st ∧ ∀ r ∈ refsOf v, r < st.nodes.length) → WfSt st') := by
  obtain ⟨hbefore, hafter⟩ := benign_hooks st v hna hb
  obtain ⟨st₁, h1eq, ⟨evs₁, h1tr⟩, h1len, h1ch, h1fr, h1props, h1oob, h1stable, h1wf⟩ :=
    runHook_spec (if truthy v then hookProp st v "onbeforeappend" else none) el st
      (by
        cases htv : truthy v
        · simp [htv, hookOk]
        · simpa [htv] using hbefore)
  have hel₁ : el < st₁.nodes.length := by omega
  obtain ⟨st₂, c, h2eq, ⟨⟨evs₂, h2tr⟩, h2len, h2src, h2cb, h2fb, h2el, h2fr, h2oob, h2props,
    h2match, h2wf⟩⟩ :=
    appendLeaf_spec v el st₁ hna (benign_mono_leaf st st₁ v hna h1stable hb) hel₁
  have h12stable : propsFnStable st st₂ :=
    propsFnStable_trans h1stable (propsFnStable_of_propsEq h2props)
  obtain ⟨st₃, h3eq, ⟨evs₃, h3tr⟩, h3len, h3ch, h3fr, h3props, h3oob, h3stable, h3wf⟩ :=
    runHook_spec (if truthy v then hookProp st₂ v "onappend" else none) el st₂
      (by
        cases htv : truthy v
        · simp [htv, hookOk]
        · simpa [htv] using hafter st₂ h12stable)
  have heq : addChildren v el st = .ok st₃ := by
    rw [addChildren_nonarr_eq v el st hna]
    simp only [h1eq, h2eq, h3eq]
  refine ⟨st₃, c, heq, ⟨evs₁ ++ (evs₂ ++ evs₃), by
      rw [h3tr, h2tr, h1tr, List.append_assoc, List.append_assoc]⟩,
    by omega, ?_, ?_, ?_, ?_, ?_, ?_, ?_, ?_⟩
  · rcases h2src with h | h
    · exact .inl h
    · exact .inr (by omega)
  · intro hr
    have := h2cb (fun r hrm => by have := hr r hrm; omega)
    omega
  · rw [h3ch el, h2el, h1ch el]
  · intro j hj hjl
    rw [h3fr j hj (by omega), h2fr j hj (by omega), h1fr j hj hjl]
  · intro j hj
    rcases Nat.lt_or_ge j st₂.nodes.length with hj₂ | hj₂
    · rw [h3ch j]
      rcases Nat.lt_or_ge j st₁.nodes.length with hj₁ | hj₁
      · have hjne : j ≠ el := by omega
        rw [h2fr j hjne hj₁]
        simp only [(h1oob j hj).1]
        rfl
      · exact h2oob j hj₁
    · exact (h3oob j hj₂).1
  · exact propsFnStable_trans h12stable h3stable
  · refine leafMatches_transport ?_ h2match
    intro hnr
    obtain ⟨hcge, hclt⟩ := h2fb hnr
    exact h3fr c (by omega) hclt
  · rintro ⟨hw, hr⟩
    exact h3wf (h2wf ⟨h1wf hw, fun r hrm => by have := hr r hrm; omega⟩)

mutual
/-- Benignness survives property-stable state evolution. -/
theorem benign_mono (st st₂ : St) (hst : propsFnStable st st₂) (v : JSVal)
    (hb : benign st v = true) : benign st₂ v = true := by
  cases v with
  | arr xs ps =>
      simp only [benign, Bool.and_eq_true] at hb ⊢
      exact ⟨hb.1, benignList_mono st st₂ hst xs hb.2⟩
  | undef => rfl
  | null => rfl
  | bool b => rfl
  | num n => rfl
  | str s => rfl
  | func fn => rfl
  | obj fields => exact hb
  | nodeRef i => exact benign_mono_leaf st st₂ (.nodeRef i) rfl hst hb

/-- Benignness of every array element survives property-stable state
evolution. -/
theorem benignList_mono (st st₂ : St) (hst : propsFnStable st st₂) (xs : JSList)
    (hb : benignList st xs = true) : benignList st₂ xs = true := by
  cases xs with
  | nil => rfl
  | cons x t =>
      simp only [benignList, Bool.and_eq_true] at hb ⊢
      exact ⟨benign_mono st st₂ hst x hb.1, benignList_mono st st₂ hst t hb.2⟩
end

/-- `addChildren` on a sequence: hooks around the element loop. -/
theorem addChildren_arr_eq (xs : JSList) (ps : JSProps) (el : Nat) (st : St) :
    addChildren (.arr xs ps) el st =
      (match runHook (asFn (lookupA ps "onbeforeappend")) el st with
       | .error e => .error e
       | .ok st₁ =>
         match addChildrenList xs el st₁ with
         | .error e => .error e
         | .ok st₂ => runHook (asFn (lookupA ps "onappend")) el st₂) := rfl

mutual
/-- Totality of `addChildren` on benign values: no exception is raised. -/
theorem addChildren_total (v : JSVal) (el : Nat) (st : St)
    (hb : benign st v = true) (hel : el < st.nodes.length) :
    ∃ st', addChildren v el st = .ok st' ∧
      st.nodes.length ≤ st'.nodes.length ∧ propsFnStable st st' ∧
      (∃ evs, st'.trace = st.trace ++ evs) := by
  cases v with
  | arr xs ps =>
      simp only [benign, Bool.and_eq_true] at hb
      obtain ⟨st₁, h1eq, ⟨evs₁, h1tr⟩, h1len, _, _, _, h1oob, h1stable, _⟩ :=
        runHook_spec (asFn (lookupA ps "onbeforeappend")) el st hb.1.1
      obtain ⟨st₂, h2eq, h2len, h2stable, evs₂, h2tr⟩ :=
        addChildrenList_total xs el st₁ (benignList_mono st st₁ h1stable xs hb.2)
          (by omega)
      obtain ⟨st₃, h3eq, ⟨evs₃, h3tr⟩, h3len, _, _, _, _, h3stable, _⟩ :=
        runHook_spec (asFn (lookupA ps "onappend")) el st₂ hb.1.2
      refine ⟨st₃, ?_, by omega,
        propsFnStable_trans (propsFnStable_trans h1stable h2stable) h3stable,
        ⟨evs₁ ++ (evs₂ ++ evs₃), by
          rw [h3tr, h2tr, h1tr, List.append_assoc, List.append_assoc]⟩⟩
      rw [addChildren_arr_eq]
      simp only [h1eq, h2eq, h3eq]
  | undef =>
      obtain ⟨st', c, heq, htr, hlen, _, _, _, _, _, hstable, _, _⟩ :=
        addChildren_leaf .undef el st rfl hb hel
      exact ⟨st', heq, hlen, hstable, htr⟩
  | null =>
      obtain ⟨st', c, heq, htr, hlen, _, _, _, _, _, hstable, _, _⟩ :=
        addChildren_leaf .null el st rfl hb hel
      exact ⟨st', heq, hlen, hstable, htr⟩
  | bool b =>
      obtain ⟨st', c, heq, htr, hlen, _, _, _, _, _, hstable, _, _⟩ :=
        addChildren_leaf (.bool b) el st rfl hb hel
      exact ⟨st', heq, hlen, hstable, htr⟩
  | num n =>
      obtain ⟨st', c, heq, htr, hlen, _, _, _, _, _, hstable, _, _⟩ :=
        addChildren_leaf (.num n) el st rfl hb hel
      exact ⟨st', heq, hlen, hstable, htr⟩
  | str s =>
      obtain ⟨st', c, heq, htr, hlen, _, _, _, _, _, hstable, _, _⟩ :=
        addChildren_leaf (.str s) el st rfl hb hel
      exact ⟨st', heq, hlen, hstable, htr⟩
  | func fn =>
      obtain ⟨st', c, heq, htr, hlen, _, _, _, _, _, hstable, _, _⟩ :=
        addChildren_leaf (.func fn) el st rfl hb hel
      exact ⟨st', heq, hlen, hstable, htr⟩
  | obj fields =>
      obtain ⟨st', c, heq, htr, hlen, _, _, _, _, _, hstable, _, _⟩ :=
        addChildren_leaf (.obj fields) el st rfl hb hel
      exact ⟨st', heq, hlen, hstable, htr⟩
  | nodeRef i =>
      obtain ⟨st', c, heq, htr, hlen, _, _, _, _, _, hstable, _, _⟩ :=
        addChildren_leaf (.nodeRef i) el st rfl hb hel
      exact ⟨st', heq, hlen, hstable, htr⟩

/-- Totality of the element loop on benign arrays. -/
theorem addChildrenList_total (xs : JSList) (el : Nat) (st : St)
    (hb : benignList st xs = true) (hel : el < st.nodes.length) :
    ∃ st', addChildrenList xs el st = .ok st' ∧
      st.nodes.length ≤ st'.nodes.length ∧ propsFnStable st st' ∧
      (∃ evs, st'.trace = st.trace ++ evs) := by
  cases xs with
  | nil =>
      exact ⟨st, rfl, Nat.le_refl _, propsFnStable_refl st, ⟨[], (List.append_nil _).symm⟩⟩
  | cons x t =>
      simp only [benignList, Bool.and_eq_true] at hb
      obtain ⟨st₁, h1eq, h1len, h1stable, evs₁, h1tr⟩ := addChildren_total x el st hb.1 hel
      obtain ⟨st₂, h2eq, h2len, h2stable, evs₂, h2tr⟩ :=
        addChildrenList_total t el st₁ (benignList_mono st st₁ h1stable t hb.2) (by omega)
      refine ⟨st₂, ?_, by omega, propsFnStable_trans h1stable h2stable,
        ⟨evs₁ ++ evs₂, by rw [h2tr, h1tr, List.append_assoc]⟩⟩
      show (match addChildren x el st with
            | Except.error e => (Except.error e : Except (Err × St) St)
            | Except.ok st' => addChildrenList t el st') = .ok st₂
      simp only [h1eq, h2eq]
end

/-- `leafMatches` only reads the appended node, so it transfers between
states that agree there. -/
theorem leafMatches_stateEq {stA stB : St} {v : JSVal} {c : Nat}
    (h : getN stB c = getN stA c) (hm : leafMatches stA v c) : leafMatches stB v c := by
  cases hlo : leafOut v with
  | useRef i =>
      simp only [leafMatches, hlo] at hm ⊢
      exact hm
  | newText s =>
      simp only [leafMatches, hlo] at hm ⊢
      rw [h]
      exact hm
  | newComment s =>
      simp only [leafMatches, hlo] at hm ⊢
      rw [h]
      exact hm
  | newElem t =>
      simp only [leafMatches, hlo] at hm ⊢
      rw [h]
      exact hm

theorem forall2_leafMatches_stable {stA stB : St} {ls : List JSVal} {ids : List Nat}
    (h : ∀ c ∈ ids, getN stB c = getN stA c)
    (hf : List.Forall₂ (leafMatches stA) ls ids) : List.Forall₂ (leafMatches stB) ls ids := by
  induction hf with
  | nil => exact .nil
  | cons hx _ ih =>
      exact .cons (leafMatches_stateEq (h _ (by simp)) hx)
        (ih (fun c hc => h c (by simp [hc])))

theorem forall2_append {α β : Type} {R : α → β → Prop} {l₁ u₁ : List α} {l₂ u₂ : List β}
    (h₁ : List.Forall₂ R l₁ l₂) (h₂ : List.Forall₂ R u₁ u₂) :
    List.Forall₂ R (l₁ ++ u₁) (l₂ ++ u₂) := by
  induction h₁ with
  | nil => exact h₂
  | cons hx _ ih => exact .cons hx ih

theorem unattached_of_childrenEq {stA stB : St} {r : Nat}
    (h : ∀ j, (getN stB j).children = (getN stA j).children)
    (hu : Unattached stA r) : Unattached stB r := fun j => by
  rw [h j]
  exact hu j

theorem flatten_nonarr (v : JSVal) (hna : isArr v = false) : flatten v = [v] := by
  cases v <;> first | rfl | simp [isArr] at hna

/-- Depth-first order theorem, single-leaf case: a benign non-sequence
value whose tree references are fresh appends exactly its predicted
content at the end of `el`'s children. -/
theorem master_leaf (v : JSVal) (el : Nat) (st : St)
    (hna : isArr v = false)
    (hb : benign st v = true)
    (hr : ∀ r ∈ refsOf v, r < st.nodes.length ∧ Unattached st r ∧ r ≠ el)
    (hw : WfSt st) (hel : el < st.nodes.length) :
    ∃ st' ids, addChildren v el st = .ok st' ∧
      st.nodes.length ≤ st'.nodes.length ∧
      (∀ j, j ≠ el → j < st.nodes.length → getN st' j = getN st j) ∧
      (∀ j, st.nodes.length ≤ j → (getN st' j).children = []) ∧
      (getN st' el).children = (getN st el).children ++ ids ∧
      (∀ i ∈ ids, (i ∈ refsOf v ∨ st.nodes.length ≤ i) ∧ i < st'.nodes.length ∧ i ≠ el) ∧
      List.Forall₂ (leafMatches st') (flatten v) ids ∧
      propsFnStable st st' ∧ WfSt st' := by
  obtain ⟨st', c, heq, _, hlen, hsrc, hcb, hchEl, hjrec, hoob, hstable, hmatch, hwf'⟩ :=
    addChildren_leaf v el st hna hb hel
  have hnotin : ∀ j, j < st.nodes.length → c ∉ (getN st j).children := by
    intro j hj hmem
    rcases hsrc with hs | hs
    · exact (hr c hs).2.1 j hmem
    · exact absurd (hw j c hmem) (by omega)
  have hclt : c < st'.nodes.length := hcb (fun r hrm => (hr r hrm).1)
  refine ⟨st', [c], heq, hlen, ?_, hoob, ?_, ?_, ?_, hstable, hwf' ⟨hw, fun r hrm => (hr r hrm).1⟩⟩
  · intro j hj hjl
    rw [hjrec j hj hjl, filter_ne_of_not_mem _ _ (hnotin j hjl)]
  · rw [hchEl, filter_ne_of_not_mem _ _ (hnotin el hel)]
  · intro i hi
    rw [List.mem_singleton.mp hi]
    refine ⟨hsrc, hclt, ?_⟩
    rcases hsrc with hs | hs
    · exact (hr c hs).2.2
    · omega
  · rw [flatten_nonarr v hna]
    exact .cons hmatch .nil

mutual
/-- Depth-first order theorem: appending a benign child value whose tree
references are pairwise fresh appends exactly the `flatten`-predicted
content, in order, at the end of `el`'s children, and touches no other
node. -/
theorem addChildren_master (v : JSVal) (el : Nat) (st : St)
    (hb : benign st v = true)
    (hnd : (refsOf v).Nodup)
    (hr : ∀ r ∈ refsOf v, r < st.nodes.length ∧ Unattached st r ∧ r ≠ el)
    (hw : WfSt st) (hel : el < st.nodes.length) :
    ∃ st' ids, addChildren v el st = .ok st' ∧
      st.nodes.length ≤ st'.nodes.length ∧
      (∀ j, j ≠ el → j < st.nodes.length → getN st' j = getN st j) ∧
      (∀ j, st.nodes.length ≤ j → (getN st' j).children = []) ∧
      (getN st' el).children = (getN st el).children ++ ids ∧
      (∀ i ∈ ids, (i ∈ refsOf v ∨ st.nodes.length ≤ i) ∧ i < st'.nodes.length ∧ i ≠ el) ∧
      List.Forall₂ (leafMatches st') (flatten v) ids ∧
      propsFnStable st st' ∧ WfSt st' := by
  cases v with
  | arr xs ps =>
      have hbd := hb
      simp only [benign, Bool.and_eq_true] at hbd
      obtain ⟨st₁, h1eq, _, h1len, h1ch, h1fr, _, h1oob, h1stable, h1wf⟩ :=
        runHook_spec (asFn (lookupA ps "onbeforeappend")) el st hbd.1.1
      obtain ⟨st₂, ids, h2eq, h2len, h2fr, h2oob, h2chEl, h2ids, h2f2, h2stable, h2wf⟩ :=
        addChildrenList_master xs el st₁
          (benignList_mono st st₁ h1stable xs hbd.2) hnd
          (fun r hrm =>
            ⟨by have := (hr r hrm).1; omega,
             unattached_of_childrenEq h1ch (hr r hrm).2.1,
             (hr r hrm).2.2⟩)
          (h1wf hw) (by omega)
      obtain ⟨st₃, h3eq, _, h3len, h3ch, h3fr, _, h3oob, h3stable, h3wf⟩ :=
        runHook_spec (asFn (lookupA ps "onappend")) el st₂ hbd.1.2
      refine ⟨st₃, ids, ?_, by omega, ?_, ?_, ?_, ?_, ?_,
        propsFnStable_trans (propsFnStable_trans h1stable h2stable) h3stable,
        h3wf h2wf⟩
      · rw [addChildren_arr_eq]
        simp only [h1eq, h2eq, h3eq]
      · intro j hj hjl
        rw [h3fr j hj (by omega), h2fr j hj (by omega), h1fr j hj hjl]
      · intro j hj
        rcases Nat.lt_or_ge j st₂.nodes.length with hj₂ | hj₂
        · rw [h3ch j]
          rcases Nat.lt_or_ge j st₁.nodes.length with hj₁ | hj₁
          · rw [h2fr j (by omega) hj₁]
            exact (h1oob j hj).1
          · exact h2oob j hj₁
        · exact (h3oob j hj₂).1
      · rw [h3ch el, h2chEl, h1ch el]
      · intro i hi
        obtain ⟨hsrc, hlt, hne⟩ := h2ids i hi
        refine ⟨?_, by omega, hne⟩
        rcases hsrc with hs | hs
        · exact .inl hs
        · exact .inr (by omega)
      · refine forall2_leafMatches_stable ?_ h2f2
        intro c hc
        obtain ⟨_, hlt, hne⟩ := h2ids c hc
        exact h3fr c hne hlt
  | undef => exact master_leaf .undef el st rfl hb hr hw hel
  | null => exact master_leaf .null el st rfl hb hr hw hel
  | bool b => exact master_leaf (.bool b) el st rfl hb hr hw hel
  | num n => exact master_leaf (.num n) el st rfl hb hr hw hel
  | str s => exact master_leaf (.str s) el st rfl hb hr hw hel
  | func fn => exact master_leaf (.func fn) el st rfl hb hr hw hel
  | obj fields => exact master_leaf (.obj fields) el st rfl hb hr hw hel
  | nodeRef i => exact master_leaf (.nodeRef i) el st rfl hb hr hw hel

/-- Depth-first order theorem for the element loop. -/
theorem addChildrenList_master (xs : JSList) (el : Nat) (st : St)
    (hb : benignList st xs = true)
    (hnd : (refsOfList xs).Nodup)
    (hr : ∀ r ∈ refsOfList xs, r < st.nodes.length ∧ Unattached st r ∧ r ≠ el)
    (hw : WfSt st) (hel : el < st.nodes.length) :
    ∃ st' ids, addChildrenList xs el st = .ok st' ∧
      st.nodes.length ≤ st'.nodes.length ∧
      (∀ j, j ≠ el → j < st.nodes.length → getN st' j = getN st j) ∧
      (∀ j, st.nodes.length ≤ j → (getN st' j).children = []) ∧
      (getN st' el).children = (getN st el).children ++ ids ∧
      (∀ i ∈ ids, (i ∈ refsOfList xs ∨ st.nodes.length ≤ i) ∧ i < st'.nodes.length ∧ i ≠ el) ∧
      List.Forall₂ (leafMatches st') (flattenList xs) ids ∧
      propsFnStable st st' ∧ WfSt st' := by
  cases xs with
  | nil =>
      exact ⟨st, [], rfl, Nat.le_refl _, fun j _ _ => rfl,
        fun j hj => by rw [getN_ge st j hj], (List.append_nil _).symm,
        fun i hi => absurd hi (List.not_mem_nil i), .nil, propsFnStable_refl st, hw⟩
  | cons x t =>
      simp only [benignList, Bool.and_eq_true] at hb
      have hndx : (refsOf x).Nodup ∧ (refsOfList t).Nodup ∧
          List.Disjoint (refsOf x) (refsOfList t) := by
        rw [show refsOfList (.cons x t) = refsOf x ++ refsOfList t from rfl] at hnd
        exact List.nodup_append.mp hnd
      obtain ⟨st₁, ids₁, h1eq, h1len, h1fr, h1oob, h1chEl, h1ids, h1f2, h1stable, h1wf⟩ :=
        addChildren_master x el st hb.1 hndx.1
          (fun r hrm => hr r (List.mem_append_left _ hrm)) hw hel
      obtain ⟨st₂, ids₂, h2eq, h2len, h2fr, h2oob, h2chEl, h2ids, h2f2, h2stable, h2wf⟩ :=
        addChildrenList_master t el st₁
          (benignList_mono st st₁ h1stable t hb.2) hndx.2.1
          (fun r hrm => by
            have ⟨hrl, hru, hrne⟩ := hr r (List.mem_append_right _ hrm)
            refine ⟨by omega, ?_, hrne⟩
            intro j
            rcases Nat.lt_or_ge j st.nodes.length with hjl | hjl
            · by_cases hje : j = el
              · subst hje
                rw [h1chEl]
                intro hmem
                rcases List.mem_append.mp hmem with hm | hm
                · exact hru j hm
                · rcases (h1ids r hm).1 with hs | hs
                  · exact hndx.2.2 hs hrm
                  · omega
              · rw [h1fr j hje hjl]
                exact hru j
            · rw [h1oob j hjl]
              simp)
          h1wf (by omega)
      refine ⟨st₂, ids₁ ++ ids₂, ?_, by omega, ?_, ?_, ?_, ?_, ?_,
        propsFnStable_trans h1stable h2stable, h2wf⟩
      · show (match addChildren x el st with
              | Except.error e => (Except.error e : Except (Err × St) St)
              | Except.ok st' => addChildrenList t el st') = .ok st₂
        simp only [h1eq, h2eq]
      · intro j hj hjl
        rw [h2fr j hj (by omega), h1fr j hj hjl]
      · intro j hj
        rcases Nat.lt_or_ge j st₁.nodes.length with hj₁ | hj₁
        · rw [h2fr j (by omega) hj₁]
          exact h1oob j hj
        · exact h2oob j hj₁
      · rw [h2chEl, h1chEl, List.append_assoc]
      · intro i hi
        rcases List.mem_append.mp hi with hm | hm
        · obtain ⟨hsrc, hlt, hne⟩ := h1ids i hm
          refine ⟨?_, by omega, hne⟩
          rcases hsrc with hs | hs
          · exact .inl (List.mem_append_left _ hs)
          · exact .inr hs
        · obtain ⟨hsrc, hlt, hne⟩ := h2ids i hm
          refine ⟨?_, by omega, hne⟩
          rcases hsrc with hs | hs
          · exact .inl (List.mem_append_right _ hs)
          · exact .inr (by omega)
      · show List.Forall₂ (leafMatches st₂) (flatten x ++ flattenList t) (ids₁ ++ ids₂)
        refine forall2_append ?_ h2f2
        refine forall2_leafMatches_stable ?_ h1f2
        intro c hc
        obtain ⟨_, hlt, hne⟩ := h1ids c hc
        exact h2fr c hne hlt
end

/-! ### Classifier lemmas -/

/-- A plain object argument is routed to the Property Applier. -/
theorem procArg_obj (fields : JSProps) (el : Nat) (st : St) :
    procArg (.obj fields) el st = addProps (.obj fields) el st := by
  unfold procArg
  rw [if_pos (show jsTag (JSVal.obj fields) = "[object Object]" from rfl)]

/-- A function argument is invoked with the element, its return value
discarded. -/
theorem procArg_func (f : Fn) (el : Nat) (st : St) :
    procArg (.func f) el st =
      (match runFn f el st with
       | .error e => .error e
       | .ok (_, st') => .ok st') := by
  unfold procArg
  rw [if_neg (show ¬jsTag (JSVal.func f) = "[object Object]" from by simp [jsTag])]

/-- Any other argument is routed to the Child Normalizer. -/
theorem procArg_other (v : JSVal) (el : Nat) (st : St)
    (h1 : jsTag v ≠ "[object Object]") (h2 : ∀ f, v ≠ .func f) :
    procArg v el st = addChildren v el st := by
  unfold procArg
  rw [if_neg h1]
  cases v with
  | func f => exact absurd rfl (h2 f)
  | obj fields => exact absurd rfl h1
  | undef => rfl
  | null => rfl
  | bool b => rfl
  | num n => rfl
  | str s => rfl
  | arr xs ps => rfl
  | nodeRef i => rfl

/-- The argument loop processes a concatenation by processing the first
part, then the second from the state the first produced (left-to-right
order). -/
theorem procArgs_append (xs ys : List JSVal) (el : Nat) (st : St) :
    procArgs (xs ++ ys) el st =
      (match procArgs xs el st with
       | .error e => .error e
       | .ok st₁ => procArgs ys el st₁) := by
  induction xs generalizing st with
  | nil => rfl
  | cons a rest ih =>
      show (match procArg a el st with
            | Except.error e => (Except.error e : Except (Err × St) St)
            | Except.ok st' => procArgs (rest ++ ys) el st') = _
      cases h : procArg a el st with
      | error e => simp only [procArgs, h]
      | ok st' =>
          simp only [procArgs, h, ih st']

/-- Unfolding of `createElement`: allocate the element, then run the
classifier loop. -/
theorem createElement_eq (tag : String) (args : List JSVal) (st : St) :
    createElement tag args st =
      (match procArgs args st.nodes.length { st with nodes := st.nodes ++ [elemNode tag] } with
       | .error e => .error e
       | .ok st' => .ok (st.nodes.length, st')) := rfl

/-! ### Property Applier lemmas -/

theorem setNode_children_pres (el : Nat) (nd : Node) (st : St)
    (hch : nd.children = (getN st el).children) :
    ∀ j, (getN (setNode el nd st) j).children = (getN st j).children := by
  intro j
  by_cases hj : j = el
  · subst hj
    by_cases hel : j < st.nodes.length
    · rw [getN_setNode_self _ _ _ hel, hch]
    · unfold setNode
      rw [set_oob _ _ _ (by omega)]
  · rw [getN_setNode_ne _ _ _ _ hj]

theorem setNodeField_preserve (el : Nat) (nd : Node) (st : St)
    (hch : nd.children = (getN st el).children) (hpr : nd.props = (getN st el).props) :
    (∀ j, (getN (setNode el nd st) j).children = (getN st j).children) ∧
    (∀ j, (getN (setNode el nd st) j).props = (getN st j).props) := by
  constructor <;> intro j <;> by_cases hj : j = el
  · subst hj
    by_cases hel : j < st.nodes.length
    · rw [getN_setNode_self _ _ _ hel, hch]
    · unfold setNode
      rw [set_oob _ _ _ (by omega)]
  · rw [getN_setNode_ne _ _ _ _ hj]
  · subst hj
    by_cases hel : j < st.nodes.length
    · rw [getN_setNode_self _ _ _ hel, hpr]
    · unfold setNode
      rw [set_oob _ _ _ (by omega)]
  · rw [getN_setNode_ne _ _ _ _ hj]

theorem styleSet_preserve (el : Nat) (ps : JSProps) (st : St) :
    (styleSet el ps st).nodes.length = st.nodes.length ∧
    (styleSet el ps st).trace = st.trace ∧
    (∀ j, (getN (styleSet el ps st) j).children = (getN st j).children) ∧
    (∀ j, (getN (styleSet el ps st) j).props = (getN st j).props) := by
  cases ps with
  | nil => exact ⟨rfl, rfl, fun j => rfl, fun j => rfl⟩
  | cons k v t =>
      simp only [styleSet]
      obtain ⟨ih1, ih2, ih3, ih4⟩ := styleSet_preserve el t
        (setNode el { getN st el with styles := setKV (getN st el).styles k (jsToString v) } st)
      obtain ⟨hch, hpr⟩ := setNodeField_preserve el
        { getN st el with styles := setKV (getN st el).styles k (jsToString v) } st rfl rfl
      exact ⟨by rw [ih1, length_setNode], by rw [ih2, trace_setNode],
        fun j => by rw [ih3 j, hch j], fun j => by rw [ih4 j, hpr j]⟩
termination_by sizeOf ps

theorem datasetSet_preserve (el : Nat) (ps : JSProps) (st : St) :
    (datasetSet el ps st).nodes.length = st.nodes.length ∧
    (datasetSet el ps st).trace = st.trace ∧
    (∀ j, (getN (datasetSet el ps st) j).children = (getN st j).children) ∧
    (∀ j, (getN (datasetSet el ps st) j).props = (getN st j).props) := by
  cases ps with
  | nil => exact ⟨rfl, rfl, fun j => rfl, fun j => rfl⟩
  | cons k v t =>
      simp only [datasetSet]
      obtain ⟨ih1, ih2, ih3, ih4⟩ := datasetSet_preserve el t
        (setNode el { getN st el with dataset := setKV (getN st el).dataset k (jsToString v) } st)
      obtain ⟨hch, hpr⟩ := setNodeField_preserve el
        { getN st el with dataset := setKV (getN st el).dataset k (jsToString v) } st rfl rfl
      exact ⟨by rw [ih1, length_setNode], by rw [ih2, trace_setNode],
        fun j => by rw [ih3 j, hch j], fun j => by rw [ih4 j, hpr j]⟩
termination_by sizeOf ps

theorem ariaSet_preserve (el : Nat) (ps : JSProps) (st : St) :
    (ariaSet el ps st).nodes.length = st.nodes.length ∧
    (ariaSet el ps st).trace = st.trace ∧
    (∀ j, (getN (ariaSet el ps st) j).children = (getN st j).children) ∧
    (∀ j, (getN (ariaSet el ps st) j).props = (getN st j).props) := by
  cases ps with
  | nil => exact ⟨rfl, rfl, fun j => rfl, fun j => rfl⟩
  | cons k v t =>
      simp only [ariaSet]
      obtain ⟨ih1, ih2, ih3, ih4⟩ := ariaSet_preserve el t
        (setNode el { getN st el with attrs := setKV (getN st el).attrs ("aria-" ++ k) (jsToString v) } st)
      obtain ⟨hch, hpr⟩ := setNodeField_preserve el
        { getN st el with attrs := setKV (getN st el).attrs ("aria-" ++ k) (jsToString v) } st rfl rfl
      exact ⟨by rw [ih1, length_setNode], by rw [ih2, trace_setNode],
        fun j => by rw [ih3 j, hch j], fun j => by rw [ih4 j, hpr j]⟩
termination_by sizeOf ps

/-- The `class` special case of the key dispatch. -/
theorem addOneProp_class (v : JSVal) (el : Nat) (st : St) :
    addOneProp "class" v el st =
      (match v with
       | .arr xs _ => classListAdd el (tokensOfList xs) st
       | .undef => .ok st
       | .null => .ok st
       | _ => .ok (setNode el { getN st el with classes := tokenize (jsToString v) } st)) := by
  unfold addOneProp
  rw [if_pos rfl]

/-- The `for` special case assigns the `htmlFor` property. -/
theorem addOneProp_for (v : JSVal) (el : Nat) (st : St) :
    addOneProp "for" v el st =
      .ok (setNode el { getN st el with props := setAssoc (getN st el).props "htmlFor" v } st) := by
  unfold addOneProp
  rw [if_neg (by decide), if_pos rfl]

/-- The `tabindex` special case assigns the `tabIndex` property. -/
theorem addOneProp_tabindex (v : JSVal) (el : Nat) (st : St) :
    addOneProp "tabindex" v el st =
      .ok (setNode el { getN st el with props := setAssoc (getN st el).props "tabIndex" v } st) := by
  unfold addOneProp
  rw [if_neg (by decide), if_neg (by decide), if_pos rfl]

/-- The `style` special case iterates the enumerated pairs of its value. -/
theorem addOneProp_style (v : JSVal) (el : Nat) (st : St) :
    addOneProp "style" v el st = .ok (styleSet el (enumPairs v) st) := by
  unfold addOneProp
  rw [if_neg (by decide), if_neg (by decide), if_neg (by decide), if_pos rfl]

/-- The `dataset` special case iterates the enumerated pairs of its value. -/
theorem addOneProp_dataset (v : JSVal) (el : Nat) (st : St) :
    addOneProp "dataset" v el st = .ok (datasetSet el (enumPairs v) st) := by
  unfold addOneProp
  rw [if_neg (by decide), if_neg (by decide), if_neg (by decide), if_neg (by decide),
    if_pos rfl]

/-- The `role` special case writes the `role` attribute. -/
theorem addOneProp_role (v : JSVal) (el : Nat) (st : St) :
    addOneProp "role" v el st =
      .ok (setNode el { getN st el with attrs := setKV (getN st el).attrs "role" (jsToString v) } st) := by
  unfold addOneProp
  rw [if_neg (by decide), if_neg (by decide), if_neg (by decide), if_neg (by decide),
    if_neg (by decide), if_pos rfl]

/-- The `aria` special case iterates the enumerated pairs of its value,
prefixing each key with `aria-`. -/
theorem addOneProp_aria (v : JSVal) (el : Nat) (st : St) :
    addOneProp "aria" v el st = .ok (ariaSet el (enumPairs v) st) := by
  unfold addOneProp
  rw [if_neg (by decide), if_neg (by decide), if_neg (by decide), if_neg (by decide),
    if_neg (by decide), if_neg (by decide), if_pos rfl]

/-- The general rule: a key that is not special-cased is assigned directly
as a same-named property. -/
theorem addOneProp_general (key : String) (v : JSVal) (el : Nat) (st : St)
    (h : key ∉ specialKeys) :
    addOneProp key v el st =
      .ok (setNode el { getN st el with props := setAssoc (getN st el).props key v } st) := by
  simp only [specialKeys, List.mem_cons, List.not_mem_nil, or_false, not_or] at h
  unfold addOneProp
  rw [if_neg h.1, if_neg h.2.1, if_neg h.2.2.1, if_neg h.2.2.2.1, if_neg h.2.2.2.2.1,
    if_neg h.2.2.2.2.2.1, if_neg h.2.2.2.2.2.2]

/-- One `addProps` iteration never raises except for invalid class tokens,
and never changes heap size, trace, or any node's children. -/
theorem addOneProp_preserve (key : String) (v : JSVal) (el : Nat) (st : St) :
    (match addOneProp key v el st with
     | .ok st' =>
         st'.nodes.length = st.nodes.length ∧ st'.trace = st.trace ∧
         (∀ j, (getN st' j).children = (getN st j).children)
     | .error (_, st') =>
         st'.nodes.length = st.nodes.length ∧ st'.trace = st.trace ∧
         (∀ j, (getN st' j).children = (getN st j).children)) := by
  by_cases h1 : key = "class"
  · subst h1
    cases v with
    | arr xs ps' =>
        simp only [addOneProp_class]
        unfold classListAdd
        by_cases hv : ((tokensOfList xs).all validToken : Bool)
        · rw [if_pos hv]
          have hch := setNode_children_pres el
            { getN st el with classes := (tokensOfList xs).foldl addTok (getN st el).classes } st rfl
          exact ⟨length_setNode _ _ _, trace_setNode _ _ _, hch⟩
        · rw [if_neg hv]
          exact ⟨rfl, rfl, fun j => rfl⟩
    | undef => exact ⟨rfl, rfl, fun j => rfl⟩
    | null => exact ⟨rfl, rfl, fun j => rfl⟩
    | bool b =>
        have hch := setNode_children_pres el
          { getN st el with classes := tokenize (jsToString (.bool b)) } st rfl
        exact ⟨length_setNode _ _ _, trace_setNode _ _ _, hch⟩
    | num n =>
        have hch := setNode_children_pres el
          { getN st el with classes := tokenize (jsToString (.num n)) } st rfl
        exact ⟨length_setNode _ _ _, trace_setNode _ _ _, hch⟩
    | str s =>
        have hch := setNode_children_pres el
          { getN st el with classes := tokenize (jsToString (.str s)) } st rfl
        exact ⟨length_setNode _ _ _, trace_setNode _ _ _, hch⟩
    | obj fields =>
        have hch := setNode_children_pres el
          { getN st el with classes := tokenize (jsToString (.obj fields)) } st rfl
        exact ⟨length_setNode _ _ _, trace_setNode _ _ _, hch⟩
    | nodeRef i =>
        have hch := setNode_children_pres el
          { getN st el with classes := tokenize (jsToString (.nodeRef i)) } st rfl
        exact ⟨length_setNode _ _ _, trace_setNode _ _ _, hch⟩
    | func fn =>
        have hch := setNode_children_pres el
          { getN st el with classes := tokenize (jsToString (.func fn)) } st rfl
        exact ⟨length_setNode _ _ _, trace_setNode _ _ _, hch⟩
  · by_cases h2 : key = "for"
    · subst h2
      rw [addOneProp_for]
      have hch := setNode_children_pres el
        { getN st el with props := setAssoc (getN st el).props "htmlFor" v } st rfl
      exact ⟨length_setNode _ _ _, trace_setNode _ _ _, hch⟩
    · by_cases h3 : key = "tabindex"
      · subst h3
        rw [addOneProp_tabindex]
        have hch := setNode_children_pres el
          { getN st el with props := setAssoc (getN st el).props "tabIndex" v } st rfl
        exact ⟨length_setNode _ _ _, trace_setNode _ _ _, hch⟩
      · by_cases h4 : key = "style"
        · subst h4
          rw [addOneProp_style]
          obtain ⟨hl, ht, hc, _⟩ := styleSet_preserve el (enumPairs v) st
          exact ⟨hl, ht, hc⟩
        · by_cases h5 : key = "dataset"
          · subst h5
            rw [addOneProp_dataset]
            obtain ⟨hl, ht, hc, _⟩ := datasetSet_preserve el (enumPairs v) st
            exact ⟨hl, ht, hc⟩
          · by_cases h6 : key = "role"
            · subst h6
              rw [addOneProp_role]
              have hch := setNode_children_pres el
                { getN st el with attrs := setKV (getN st el).attrs "role" (jsToString v) } st rfl
              exact ⟨length_setNode _ _ _, trace_setNode _ _ _, hch⟩
            · by_cases h7 : key = "aria"
              · subst h7
                rw [addOneProp_aria]
                obtain ⟨hl, ht, hc, _⟩ := ariaSet_preserve el (enumPairs v) st
                exact ⟨hl, ht, hc⟩
              · rw [addOneProp_general key v el st
                  (by simp [specialKeys, h1, h2, h3, h4, h5, h6, h7])]
                have hch := setNode_children_pres el
                  { getN st el with props := setAssoc (getN st el).props key v } st rfl
                exact ⟨length_setNode _ _ _, trace_setNode _ _ _, hch⟩

/-- The `addProps` loop never raises except for invalid class tokens, and
never changes heap size, trace, or any node's children: a property bag
never becomes a child. -/
theorem addPropsGo_preserve (pairs : JSProps) (el : Nat) (st : St) :
    (match addPropsGo pairs el st with
     | .ok st' =>
         st'.nodes.length = st.nodes.length ∧ st'.trace = st.trace ∧
         (∀ j, (getN st' j).children = (getN st j).children)
     | .error (_, st') =>
         st'.nodes.length = st.nodes.length ∧ st'.trace = st.trace ∧
         (∀ j, (getN st' j).children = (getN st j).children)) := by
  cases pairs with
  | nil => exact ⟨rfl, rfl, fun j => rfl⟩
  | cons key v t =>
      have h1 := addOneProp_preserve key v el st
      show (match (match addOneProp key v el st with
                   | Except.error e => (Except.error e : Except (Err × St) St)
                   | Except.ok st' => addPropsGo t el st') with
            | Except.ok st' => _
            | Except.error (_, st') => _)
      cases heq : addOneProp key v el st with
      | error e =>
          rw [heq] at h1
          obtain ⟨e₁, st₁⟩ := e
          exact h1
      | ok st₁ =>
          rw [heq] at h1
          have h2 := addPropsGo_preserve t el st₁
          show (match addPropsGo t el st₁ with
                | Except.ok st' =>
                    st'.nodes.length = st.nodes.length ∧ st'.trace = st.trace ∧
                    (∀ j, (getN st' j).children = (getN st j).children)
                | Except.error (_, st') =>
                    st'.nodes.length = st.nodes.length ∧ st'.trace = st.trace ∧
                    (∀ j, (getN st' j).children = (getN st j).children))
          cases heq₂ : addPropsGo t el st₁ with
          | error e₂ =>
              rw [heq₂] at h2
              obtain ⟨e₃, st₃⟩ := e₂
              exact ⟨by rw [h2.1, h1.1], by rw [h2.2.1, h1.2.1],
                fun j => by rw [h2.2.2 j, h1.2.2 j]⟩
          | ok st₂ =>
              rw [heq₂] at h2
              exact ⟨by rw [h2.1, h1.1], by rw [h2.2.1, h1.2.1],
                fun j => by rw [h2.2.2 j, h1.2.2 j]⟩
termination_by sizeOf pairs

/-- `classList.add` raises the host error when some token is invalid. -/
theorem classListAdd_err (el : Nat) (toks : List String) (st : St)
    (hval : ¬ toks.all validToken = true) :
    classListAdd el toks st = .error (.hostErr "DOMTokenList.add: invalid token", st) := by
  unfold classListAdd
  rw [if_neg hval]

/-- Whatever value the `class` key receives, the stored props of the
element are untouched: `class` writes the class list or attribute only. -/
theorem addOneProp_class_props (v : JSVal) (el : Nat) (st st' : St)
    (hok : addOneProp "class" v el st = .ok st') :
    (getN st' el).props = (getN st el).props := by
  cases v with
  | arr xs ps' =>
      have hok₂ : classListAdd el (tokensOfList xs) st = .ok st' := hok
      unfold classListAdd at hok₂
      by_cases hv : ((tokensOfList xs).all validToken : Bool) = true
      · rw [if_pos hv] at hok₂
        cases hok₂
        exact (setNodeField_preserve el
          { getN st el with classes := (tokensOfList xs).foldl addTok (getN st el).classes }
          st rfl rfl).2 el
      · rw [if_neg hv] at hok₂
        cases hok₂
  | undef =>
      have hok₂ : (Except.ok st : Except (Err × St) St) = .ok st' := hok
      cases hok₂
      rfl
  | null =>
      have hok₂ : (Except.ok st : Except (Err × St) St) = .ok st' := hok
      cases hok₂
      rfl
  | bool b =>
      have hok₂ : (Except.ok (setNode el { getN st el with classes := tokenize (jsToString (.bool b)) } st) :
          Except (Err × St) St) = .ok st' := hok
      cases hok₂
      exact (setNodeField_preserve el
        { getN st el with classes := tokenize (jsToString (.bool b)) } st rfl rfl).2 el
  | num n =>
      have hok₂ : (Except.ok (setNode el { getN st el with classes := tokenize (jsToString (.num n)) } st) :
          Except (Err × St) St) = .ok st' := hok
      cases hok₂
      exact (setNodeField_preserve el
        { getN st el with classes := tokenize (jsToString (.num n)) } st rfl rfl).2 el
  | str s =>
      have hok₂ : (Except.ok (setNode el { getN st el with classes := tokenize (jsToString (.str s)) } st) :
          Except (Err × St) St) = .ok st' := hok
      cases hok₂
      exact (setNodeField_preserve el
        { getN st el with classes := tokenize (jsToString (.str s)) } st rfl rfl).2 el
  | obj fields =>
      have hok₂ : (Except.ok (setNode el { getN st el with classes := tokenize (jsToString (.obj fields)) } st) :
          Except (Err × St) St) = .ok st' := hok
      cases hok₂
      exact (setNodeField_preserve el
        { getN st el with classes := tokenize (jsToString (.obj fields)) } st rfl rfl).2 el
  | nodeRef i =>
      have hok₂ : (Except.ok (setNode el { getN st el with classes := tokenize (jsToString (.nodeRef i)) } st) :
          Except (Err × St) St) = .ok st' := hok
      cases hok₂
      exact (setNodeField_preserve el
        { getN st el with classes := tokenize (jsToString (.nodeRef i)) } st rfl rfl).2 el
  | func fn =>
      have hok₂ : (Except.ok (setNode el { getN st el with classes := tokenize (jsToString (.func fn)) } st) :
          Except (Err × St) St) = .ok st' := hok
      cases hok₂
      exact (setNodeField_preserve el
        { getN st el with classes := tokenize (jsToString (.func fn)) } st rfl rfl).2 el

/-- Writing one key through `setAssoc` on the element record leaves the
lookup of any other key unchanged. -/
theorem lookup_setNode_setAssoc (el : Nat) (st : St) (wk k : String) (v : JSVal)
    (hk : wk ≠ k) :
    lookupA (getN (setNode el { getN st el with props := setAssoc (getN st el).props wk v } st) el).props k
      = lookupA (getN st el).props k := by
  by_cases hel : el < st.nodes.length
  · rw [getN_setNode_self _ _ _ hel]
    show lookupA (setAssoc (getN st el).props wk v) k = _
    rw [lookupA_setAssoc, if_neg hk]
  · unfold setNode
    rw [set_oob _ _ _ (by omega)]

/-- One `addProps` iteration on a key other than `k` (where `k` is not an
alias target `htmlFor`/`tabIndex`) leaves the lookup of `k` unchanged. -/
theorem addOneProp_lookup_pres (key k : String) (v' : JSVal) (el : Nat) (st st' : St)
    (hne : key ≠ k) (h1 : k ≠ "htmlFor") (h2 : k ≠ "tabIndex")
    (hok : addOneProp key v' el st = .ok st') :
    lookupA (getN st' el).props k = lookupA (getN st el).props k := by
  by_cases hc1 : key = "class"
  · subst hc1
    rw [addOneProp_class_props v' el st st' hok]
  · by_cases hc2 : key = "for"
    · subst hc2
      rw [addOneProp_for] at hok
      cases hok
      exact lookup_setNode_setAssoc el st "htmlFor" k v' (fun hh => h1 hh.symm)
    · by_cases hc3 : key = "tabindex"
      · subst hc3
        rw [addOneProp_tabindex] at hok
        cases hok
        exact lookup_setNode_setAssoc el st "tabIndex" k v' (fun hh => h2 hh.symm)
      · by_cases hc4 : key = "style"
        · subst hc4
          rw [addOneProp_style] at hok
          cases hok
          exact congrArg (fun p => lookupA p k) ((styleSet_preserve el (enumPairs v') st).2.2.2 el)
        · by_cases hc5 : key = "dataset"
          · subst hc5
            rw [addOneProp_dataset] at hok
            cases hok
            exact congrArg (fun p => lookupA p k) ((datasetSet_preserve el (enumPairs v') st).2.2.2 el)
          · by_cases hc6 : key = "role"
            · subst hc6
              rw [addOneProp_role] at hok
              cases hok
              exact congrArg (fun p => lookupA p k) ((setNodeField_preserve el
                { getN st el with attrs := setKV (getN st el).attrs "role" (jsToString v') }
                st rfl rfl).2 el)
            · by_cases hc7 : key = "aria"
              · subst hc7
                rw [addOneProp_aria] at hok
                cases hok
                exact congrArg (fun p => lookupA p k) ((ariaSet_preserve el (enumPairs v') st).2.2.2 el)
              · rw [addOneProp_general key v' el st
                  (by simp [specialKeys, hc1, hc2, hc3, hc4, hc5, hc6, hc7])] at hok
                cases hok
                exact lookup_setNode_setAssoc el st key k v' hne

/-- The `addProps` loop never changes the lookup of a key it does not
enumerate (and that is not an alias target). -/
theorem addPropsGo_lookup_pres (pairs : JSProps) (k : String) (el : Nat) (st st' : St)
    (hk : k ∉ keysOf pairs) (h1 : k ≠ "htmlFor") (h2 : k ≠ "tabIndex")
    (hok : addPropsGo pairs el st = .ok st') :
    lookupA (getN st' el).props k = lookupA (getN st el).props k := by
  cases pairs with
  | nil =>
      have hok₂ : (Except.ok st : Except (Err × St) St) = .ok st' := hok
      cases hok₂
      rfl
  | cons key v t =>
      simp only [keysOf, List.mem_cons, not_or] at hk
      have hm : (match addOneProp key v el st with
                 | Except.error e => (Except.error e : Except (Err × St) St)
                 | Except.ok st₁ => addPropsGo t el st₁) = .ok st' := hok
      cases heq : addOneProp key v el st with
      | error e =>
          rw [heq] at hm
          have hm₂ : (Except.error e : Except (Err × St) St) = .ok st' := hm
          cases hm₂
      | ok st₁ =>
          rw [heq] at hm
          have hm₂ : addPropsGo t el st₁ = .ok st' := hm
          rw [addPropsGo_lookup_pres t k el st₁ st' hk.2 h1 h2 hm₂]
          exact addOneProp_lookup_pres key k v el st st₁ (fun hh => hk.1 hh.symm) h1 h2 heq
termination_by sizeOf pairs

/-- If the `addProps` loop enumerates `k` (a general key, no alias
interference, keys unique) with value `v`, then after the loop the element
holds exactly `v` at `k`. -/
theorem addPropsGo_lookup_write (pairs : JSProps) (k : String) (v : JSVal) (el : Nat)
    (st st' : St)
    (hk : k ∉ specialKeys) (h1 : k ≠ "htmlFor") (h2 : k ≠ "tabIndex")
    (hnd : (keysOf pairs).Nodup) (hfind : lookupA pairs k = some v)
    (hel : el < st.nodes.length)
    (hok : addPropsGo pairs el st = .ok st') :
    lookupA (getN st' el).props k = some v := by
  cases pairs with
  | nil => exact Option.noConfusion hfind
  | cons key v₀ t =>
      have hm : (match addOneProp key v₀ el st with
                 | Except.error e => (Except.error e : Except (Err × St) St)
                 | Except.ok st₁ => addPropsGo t el st₁) = .ok st' := hok
      by_cases hkey : key = k
      · subst hkey
        have hv : v₀ = v := by
          have hif : (if key = key then some v₀ else lookupA t key) = some v := hfind
          rw [if_pos rfl] at hif
          exact Option.some.inj hif
        subst hv
        rw [addOneProp_general key v₀ el st hk] at hm
        have hm₂ : addPropsGo t el
            (setNode el { getN st el with props := setAssoc (getN st el).props key v₀ } st) = .ok st' := hm
        have hkt : key ∉ keysOf t := by
          simp only [keysOf, List.nodup_cons] at hnd
          exact hnd.1
        rw [addPropsGo_lookup_pres t key el _ st' hkt h1 h2 hm₂]
        rw [getN_setNode_self _ _ _ hel]
        show lookupA (setAssoc (getN st el).props key v₀) key = some v₀
        rw [lookupA_setAssoc, if_pos rfl]
      · have hfind₂ : lookupA t k = some v := by
          have hif : (if key = k then some v₀ else lookupA t k) = some v := hfind
          rw [if_neg hkey] at hif
          exact hif
        have hnd₂ : (keysOf t).Nodup := by
          simp only [keysOf, List.nodup_cons] at hnd
          exact hnd.2
        cases heq : addOneProp key v₀ el st with
        | error e =>
            rw [heq] at hm
            have hm₂ : (Except.error e : Except (Err × St) St) = .ok st' := hm
            cases hm₂
        | ok st₁ =>
            rw [heq] at hm
            have hm₂ : addPropsGo t el st₁ = .ok st' := hm
            have hp := addOneProp_preserve key v₀ el st
            rw [heq] at hp
            exact addPropsGo_lookup_write t k v el st₁ st' hk h1 h2 hnd₂ hfind₂
              (hp.1 ▸ hel) hm₂
termination_by sizeOf pairs

/-- A successful caller-function invocation appends exactly one call event
recording the function, the argument node, and a snapshot of the
argument's children at call time. -/
theorem runFn_ok_trace (f : Fn) (arg : Nat) (st st' : St) (r : JSVal)
    (hok : runFn f arg st = .ok (r, st')) :
    st'.trace = st.trace ++ [Event.call f.id arg (getN st arg).children] := by
  obtain ⟨fid, fbody⟩ := f
  cases fbody with
  | ret => cases hok; rfl
  | raise msg => cases hok
  | setStrProp k v =>
      cases hok
      rw [trace_setNode]
  | retNewElem tag => cases hok; rfl
  | retNode i => cases hok; rfl
  | retStr s => cases hok; rfl

/-- A successful hook invocation appends exactly its call event (with the
children snapshot taken before the hook ran) and changes no node's
children. -/
theorem runHook_some_ok (f : Fn) (arg : Nat) (st st' : St)
    (hnr : nonRaising f.body = true)
    (hok : runHook (some f) arg st = .ok st') :
    st'.trace = st.trace ++ [Event.call f.id arg (getN st arg).children] ∧
    (∀ j, (getN st' j).children = (getN st j).children) := by
  obtain ⟨r, st₂, heq, htr, _, hch, _, _, _, _, _⟩ := runFn_spec f arg st hnr
  have hok₂ : (match runFn f arg st with
               | Except.error e => (Except.error e : Except (Err × St) St)
               | Except.ok (_, st₁) => Except.ok st₁) = .ok st' := hok
  rw [heq] at hok₂
  have hok₃ : (Except.ok st₂ : Except (Err × St) St) = .ok st' := hok₂
  cases hok₃
  exact ⟨htr, hch⟩

/-- C1: `createElement` allocates a fresh element, then feeds the trailing
arguments through the classifier strictly left to right; each argument is
dispatched by runtime shape — a value whose shape tag is
`"[object Object]"` goes to the Property Applier, a function is invoked
exactly once (recording exactly one call event) with the node under
construction and its return value discarded, and anything else goes to the
Child Normalizer — and the call returns the node with the resulting
state. -/
theorem C1_createElement_dispatch (tag : String) (args ys : List JSVal) (st : St) :
    (createElement tag args st =
      (match procArgs args st.nodes.length { st with nodes := st.nodes ++ [elemNode tag] } with
       | .error e => .error e
       | .ok st' => .ok (st.nodes.length, st'))) ∧
    (∀ el stA, procArgs (args ++ ys) el stA =
      (match procArgs args el stA with
       | .error e => .error e
       | .ok st₁ => procArgs ys el st₁)) ∧
    (∀ fields el stA, procArg (.obj fields) el stA = addProps (.obj fields) el stA) ∧
    (∀ f el stA, procArg (.func f) el stA =
      (match runFn f el stA with
       | .error e => .error e
       | .ok (_, st') => .ok st')) ∧
    (∀ f el stA r st', runFn f el stA = .ok (r, st') →
      st'.trace = stA.trace ++ [Event.call f.id el (getN stA el).children]) ∧
    (∀ v el stA, jsTag v ≠ "[object Object]" → (∀ f, v ≠ .func f) →
      procArg v el stA = addChildren v el stA) :=
  ⟨createElement_eq tag args st,
   fun el stA => procArgs_append args ys el stA,
   fun fields el stA => procArg_obj fields el stA,
   fun f el stA => procArg_func f el stA,
   fun f el stA r st' hok => runFn_ok_trace f el stA st' r hok,
   fun v el stA h1 h2 => procArg_other v el stA h1 h2⟩

theorem C1_createElement_dispatch_wit :
    procArg (.str "hi") 0 st₀ = addChildren (.str "hi") 0 st₀ :=
  (C1_createElement_dispatch "div" [] [] st₀).2.2.2.2.2 (.str "hi") 0 st₀
    (by decide) (fun f h => JSVal.noConfusion h)

/-- C2: the Child Normalizer's shape dispatch — a sequence recurses
element by element (between the sequence's own hooks), a tree node is
appended directly, `null`/`undefined` append a fresh comment node reading
exactly `"null"`/`"undefined"`, a `toElement` producer is invoked and its
node appended (taking priority over `toString`), a `toString` producer
(without `toElement`) appends the produced string as a text node, and any
remaining value appends its string coercion as a text node. -/
theorem C2_addChildren_shapes (el : Nat) (st : St) :
    (∀ xs ps, addChildren (.arr xs ps) el st =
      (match runHook (asFn (lookupA ps "onbeforeappend")) el st with
       | .error e => .error e
       | .ok st₁ =>
         match addChildrenList xs el st₁ with
         | .error e => .error e
         | .ok st₂ => runHook (asFn (lookupA ps "onappend")) el st₂)) ∧
    (∀ i, appendLeaf (.nodeRef i) el st = .ok (appendChild el i st)) ∧
    (appendLeaf .null el st = .ok (appendNewComment el "null" st)) ∧
    (appendLeaf .undef el st = .ok (appendNewComment el "undefined" st)) ∧
    (∀ fields f, asFn (lookupA fields "toElement") = some f →
      appendLeaf (.obj fields) el st =
        (match runFn0 f st with
         | .error e => .error e
         | .ok (r, st₁) =>
             match r with
             | .nodeRef i => .ok (appendChild el i st₁)
             | _ => .error (.hostErr "appendChild: argument is not a Node", st₁))) ∧
    (∀ fields f, asFn (lookupA fields "toElement") = none →
      asFn (lookupA fields "toString") = some f →
      appendLeaf (.obj fields) el st =
        (match runFn0 f st with
         | .error e => .error e
         | .ok (r, st₁) => .ok (appendNewText el (jsToString r) st₁))) ∧
    (∀ b, appendLeaf (.bool b) el st = .ok (appendNewText el (jsToString (.bool b)) st)) ∧
    (∀ n, appendLeaf (.num n) el st = .ok (appendNewText el (jsToString (.num n)) st)) ∧
    (∀ s, appendLeaf (.str s) el st = .ok (appendNewText el (jsToString (.str s)) st)) ∧
    (∀ v, isArr v = false →
      addChildren v el st =
        (match runHook (if truthy v then hookProp st v "onbeforeappend" else none) el st with
         | .error e => .error e
         | .ok st₁ =>
           match appendLeaf v el st₁ with
           | .error e => .error e
           | .ok st₂ =>
               runHook (if truthy v then hookProp st₂ v "onappend" else none) el st₂)) := by
  refine ⟨fun xs ps => addChildren_arr_eq xs ps el st, fun i => rfl, rfl, rfl,
    ?_, ?_, fun b => rfl, fun n => rfl, fun s => rfl,
    fun v hna => addChildren_nonarr_eq v el st hna⟩
  · intro fields f h
    simp only [appendLeaf, h]
  · intro fields f h1 h2
    have h2x : lookupA fields "toString" = some (.func f) := by
      cases hl : lookupA fields "toString" with
      | none =>
          rw [hl] at h2
          exact Option.noConfusion h2
      | some w =>
          cases w with
          | func g =>
              rw [hl] at h2
              have hg : g = f := Option.some.inj h2
              rw [hg]
          | undef => rw [hl] at h2; exact Option.noConfusion h2
          | null => rw [hl] at h2; exact Option.noConfusion h2
          | bool b => rw [hl] at h2; exact Option.noConfusion h2
          | num n => rw [hl] at h2; exact Option.noConfusion h2
          | str s => rw [hl] at h2; exact Option.noConfusion h2
          | arr xs ps => rw [hl] at h2; exact Option.noConfusion h2
          | obj fields2 => rw [hl] at h2; exact Option.noConfusion h2
          | nodeRef i => rw [hl] at h2; exact Option.noConfusion h2
    simp only [appendLeaf, h1, h2x]

theorem C2_addChildren_shapes_wit :
    appendLeaf (.obj (.cons "toElement" (.func ⟨7, .retNewElem "p"⟩) .nil)) 0 st₀ =
      (match runFn0 ⟨7, .retNewElem "p"⟩ st₀ with
       | .error e => .error e
       | .ok (r, st₁) =>
           match r with
           | .nodeRef i => .ok (appendChild 0 i st₁)
           | _ => .error (.hostErr "appendChild: argument is not a Node", st₁)) :=
  (C2_addChildren_shapes 0 st₀).2.2.2.2.1
    (.cons "toElement" (.func ⟨7, .retNewElem "p"⟩) .nil) ⟨7, .retNewElem "p"⟩ rfl

/-- C3 (counterexample): appending the sequence `[n1, n1]` naming the same
existing node twice yields one child, not two — `appendChild` re-parents,
so the exact-order correspondence of children with the flattened sequence
fails for duplicate node references. -/
theorem C3_dup_node_cex :
    (match addChildren (.arr (.cons (.nodeRef 1) (.cons (.nodeRef 1) .nil)) .nil) 0 st₀ with
     | .ok st' => (getN st' 0).children
     | .error _ => []) = [1] ∧
    (flatten (.arr (.cons (.nodeRef 1) (.cons (.nodeRef 1) .nil)) .nil)).length = 2 :=
  ⟨rfl, rfl⟩

/-- C3 (amended): for a benign, function-free child value whose
existing-node references are pairwise distinct, unattached, childless (so
no append can create a cycle) and different from the target, the appended
children realise exactly the left-to-right depth-first flattening of the
value, in order, and no other node changes.  Function leaves are excluded
because the embedding does not render a function's source text. -/
theorem C3_dfs_order (v : JSVal) (el : Nat) (st : St)
    (hb : benign st v = true) (hff : funcFree v = true) (hnd : (refsOf v).Nodup)
    (hr : ∀ r ∈ refsOf v,
      r < st.nodes.length ∧ Unattached st r ∧ r ≠ el ∧ (getN st r).children = [])
    (hw : WfSt st) (hel : el < st.nodes.length) :
    ∃ st' ids, addChildren v el st = .ok st' ∧
      (getN st' el).children = (getN st el).children ++ ids ∧
      List.Forall₂ (leafMatches st') (flatten v) ids ∧
      (∀ j, j ≠ el → j < st.nodes.length → getN st' j = getN st j) ∧
      WfSt st' := by
  obtain ⟨st', ids, heq, _, hfr, _, hch, _, hf2, _, hwf⟩ :=
    addChildren_master v el st hb hnd
      (fun r m => ⟨(hr r m).1, (hr r m).2.1, (hr r m).2.2.1⟩) hw hel
  exact ⟨st', ids, heq, hch, hf2, hfr, hwf⟩

theorem C3_dfs_order_wit :
    ∃ st' ids, addChildren vC3 0 st₀ = .ok st' ∧
      (getN st' 0).children = (getN st₀ 0).children ++ ids ∧
      List.Forall₂ (leafMatches st') (flatten vC3) ids ∧
      (∀ j, j ≠ 0 → j < st₀.nodes.length → getN st' j = getN st₀ j) ∧
      WfSt st' :=
  C3_dfs_order vC3 0 st₀ (by decide) (by decide) (by decide)
    (fun r hr => absurd hr (List.not_mem_nil r))
    ((wfSt_iff st₀).mpr (by decide)) (by decide)

/-- C6 (counterexample): the Child Normalizer is not total and does not
always append content — a value exposing a throwing `toString` producer
raises, a value whose own `toString` binding is not callable makes the
string coercion raise a `TypeError`, and an empty sequence appends nothing
at all. -/
theorem C6_not_total_cex :
    (match addChildren (.obj (.cons "toString" (.func ⟨5, .raise "boom"⟩) .nil)) 0 st₀ with
     | .ok _ => false
     | .error _ => true) = true ∧
    (match addChildren (.obj (.cons "toString" (.num 5) .nil)) 0 st₀ with
     | .ok _ => false
     | .error _ => true) = true ∧
    addChildren (.arr .nil .nil) 0 st₀ = .ok st₀ ∧
    (getN st₀ 0).children = [] :=
  ⟨rfl, rfl, rfl, rfl⟩

/-- C6 (amended): on benign values — every exposed hook non-throwing,
every elementable producer returning a node, any own `toString` binding a
callable, non-throwing producer (of a primitive, conservatively),
recursively through sequences — and with every referenced existing node
childless and distinct from the target (ruling the host's hierarchy
errors out of scope), the Child Normalizer raises no exception: it
returns a state that only grows the heap and extends the trace. -/
theorem C6_total_benign (v : JSVal) (el : Nat) (st : St)
    (hb : benign st v = true)
    (hr : ∀ r ∈ refsOf v, r ≠ el ∧ (getN st r).children = [])
    (hel : el < st.nodes.length) :
    ∃ st', addChildren v el st = .ok st' ∧
      st.nodes.length ≤ st'.nodes.length ∧
      (∃ evs, st'.trace = st.trace ++ evs) := by
  obtain ⟨st', heq, hlen, _, htr⟩ := addChildren_total v el st hb hel
  exact ⟨st', heq, hlen, htr⟩

theorem C6_total_benign_wit :
    ∃ st', addChildren (.str "x") 0 st₀ = .ok st' ∧
      st₀.nodes.length ≤ st'.nodes.length ∧
      (∃ evs, st'.trace = st₀.trace ++ evs) :=
  C6_total_benign (.str "x") 0 st₀ (by decide)
    (fun r hr => absurd hr (List.not_mem_nil r)) (by decide)

/-- C7: a failure raised while processing one constructor argument
propagates unmodified (same error value, carrying the state with all
mutations applied so far) to the caller, and no later argument is
processed; a throwing caller function surfaces its thrown value directly,
with the prior state preserved apart from the recorded call. -/
theorem C7_failure_propagation :
    (∀ a rest el st e, procArg a el st = .error e →
        procArgs (a :: rest) el st = .error e) ∧
    (∀ tag args st e,
        procArgs args st.nodes.length { st with nodes := st.nodes ++ [elemNode tag] } =
          .error e →
        createElement tag args st = .error e) ∧
    (∀ f el st msg, f.body = .raise msg →
        runFn f el st = .error (.thrown msg,
          { st with trace := st.trace ++ [Event.call f.id el (getN st el).children] })) := by
  refine ⟨?_, ?_, ?_⟩
  · intro a rest el st e h
    show (match procArg a el st with
          | Except.error e => (Except.error e : Except (Err × St) St)
          | Except.ok st' => procArgs rest el st') = .error e
    rw [h]
  · intro tag args st e h
    rw [createElement_eq, h]
  · intro f el st msg hmsg
    unfold runFn
    rw [hmsg]

theorem C7_failure_propagation_wit :
    procArgs [JSVal.func ⟨5, .raise "boom"⟩, JSVal.str "x"] 0 st₀ =
      .error (.thrown "boom",
        { nodes := [elemNode "div", elemNode "span"], trace := [Event.call 5 0 []] }) :=
  C7_failure_propagation.1 (.func ⟨5, .raise "boom"⟩) [.str "x"] 0 st₀
    (.thrown "boom",
      { nodes := [elemNode "div", elemNode "span"], trace := [Event.call 5 0 []] }) rfl

/-- C8 (counterexample): with `P2 = {htmlFor: "b", for: "c"}`, the key
`htmlFor` is present in both bags yet ends with value `"c"`, not `P2`'s
own `htmlFor` value `"b"` — the `for` alias writes the same underlying
property afterwards, breaking unrestricted last-write-wins.  The `class`
and `tabindex` branches break it the same way for `className` and
`tabIndex`. -/
theorem C8_alias_cex :
    (match addProps (.obj (.cons "htmlFor" (.str "a") .nil)) 0 st₀ with
     | .ok st₁ =>
         (match addProps (.obj (.cons "htmlFor" (.str "b")
             (.cons "for" (.str "c") .nil))) 0 st₁ with
          | .ok st₂ => lookupA (getN st₂ 0).props "htmlFor"
          | .error _ => none)
     | .error _ => none) = some (.str "c") ∧
    lookupA (.cons "htmlFor" (.str "b") (.cons "for" (.str "c") .nil)) "htmlFor" =
      some (.str "b") ∧
    ¬("c" = "b") :=
  ⟨rfl, rfl, by decide⟩

/-- C8 (amended): a non-special key is assigned directly as a same-named
property, and last-write-wins holds for any key that is not special-cased
and not one of the properties a special-cased branch itself writes —
`htmlFor` (written by `for`), `tabIndex` (written by `tabindex`) and
`className` (the class attribute, which both `class` branches rewrite): if
the second bag binds `k` (keys unique) then after applying both bags the
element holds exactly the second bag's value at `k`.  The property store
models plain data properties; the excluded alias targets are exactly the
host-reflected properties the special branches write. -/
theorem C8_last_write_wins (P1 P2 : JSProps) (k : String) (v : JSVal) (el : Nat)
    (st st₁ st₂ : St)
    (hk : k ∉ specialKeys) (h1 : k ≠ "htmlFor") (h2 : k ≠ "tabIndex")
    (h3 : k ≠ "className")
    (hnd : (keysOf P2).Nodup) (hfind : lookupA P2 k = some v)
    (hel : el < st.nodes.length)
    (hok1 : addProps (.obj P1) el st = .ok st₁)
    (hok2 : addProps (.obj P2) el st₁ = .ok st₂) :
    (∀ key v' stA, key ∉ specialKeys →
        addOneProp key v' el stA =
          .ok (setNode el { getN stA el with props := setAssoc (getN stA el).props key v' } stA)) ∧
    lookupA (getN st₂ el).props k = some v := by
  refine ⟨fun key v' stA hkey => addOneProp_general key v' el stA hkey, ?_⟩
  have hok1a : addPropsGo P1 el st = .ok st₁ := hok1
  have hok2a : addPropsGo P2 el st₁ = .ok st₂ := hok2
  have hp := addPropsGo_preserve P1 el st
  rw [hok1a] at hp
  exact addPropsGo_lookup_write P2 k v el st₁ st₂ hk h1 h2 hnd hfind
    (by have := hp.1; omega) hok2a

theorem C8_last_write_wins_wit :
    (∀ key v' stA, key ∉ specialKeys →
        addOneProp key v' 0 stA =
          .ok (setNode 0 { getN stA 0 with props := setAssoc (getN stA 0).props key v' } stA)) ∧
    lookupA (getN { nodes := [{ elemNode "div" with props := .cons "value" (.str "w2") .nil }, elemNode "span"], trace := [] } 0).props "value" = some (.str "w2") :=
  C8_last_write_wins (.cons "value" (.str "w1") .nil) (.cons "value" (.str "w2") .nil)
    "value" (.str "w2") 0 st₀
    { nodes := [{ elemNode "div" with props := .cons "value" (.str "w1") .nil }, elemNode "span"], trace := [] }
    { nodes := [{ elemNode "div" with props := .cons "value" (.str "w2") .nil }, elemNode "span"], trace := [] }
    (by decide) (by decide) (by decide) (by decide) (by decide) rfl (by decide) rfl rfl

/-- C9 (counterexample): a string is a non-mapping value, yet `for … in`
enumerates its indices, so `{aria: "ab"}` sets the attributes `aria-0` and
`aria-1` — the node does not stay unchanged. -/
theorem C9_string_iterates_cex :
    (match addOneProp "aria" (.str "ab") 0 st₀ with
     | .ok st' => (getN st' 0).attrs
     | .error _ => []) = [("aria-0", "a"), ("aria-1", "b")] := rfl

/-- C9 (amended): for a value that enumerates no keys under `for … in`
(`null`, `undefined`, booleans, numbers, functions — but not strings),
`style`, `dataset`, and `aria` iterate zero times and leave the state
entirely unchanged, raising nothing. -/
theorem C9_noop_empty_enum (v : JSVal) (el : Nat) (st : St)
    (h : enumPairs v = .nil) :
    addOneProp "style" v el st = .ok st ∧
    addOneProp "dataset" v el st = .ok st ∧
    addOneProp "aria" v el st = .ok st := by
  refine ⟨?_, ?_, ?_⟩
  · rw [addOneProp_style, h]
    rfl
  · rw [addOneProp_dataset, h]
    rfl
  · rw [addOneProp_aria, h]
    rfl

theorem C9_noop_empty_enum_wit :
    enumPairs (.num 5) = .nil ∧
    (addOneProp "style" (.num 5) 0 st₀ = .ok st₀ ∧
     addOneProp "dataset" (.num 5) 0 st₀ = .ok st₀ ∧
     addOneProp "aria" (.num 5) 0 st₀ = .ok st₀) :=
  ⟨rfl, C9_noop_empty_enum (.num 5) 0 st₀ rfl⟩

/-- C10: every value whose shape tag is `"[object Object]"` — exactly the
plain-object values, whatever methods they carry — is routed by the
classifier to the Property Applier and never to the Child Normalizer: the
Property Applier never grows the heap, never appends a child to any node,
and never records a call event while assigning the enumerable keys. -/
theorem C10_plain_object_route :
    (∀ fields el st, procArg (.obj fields) el st = addProps (.obj fields) el st) ∧
    (∀ v, jsTag v = "[object Object]" → ∃ fields, v = .obj fields) ∧
    (∀ fields el st,
      (match addProps (.obj fields) el st with
       | .ok st' =>
           st'.nodes.length = st.nodes.length ∧ st'.trace = st.trace ∧
           (∀ j, (getN st' j).children = (getN st j).children)
       | .error (_, st') =>
           st'.nodes.length = st.nodes.length ∧ st'.trace = st.trace ∧
           (∀ j, (getN st' j).children = (getN st j).children))) := by
  refine ⟨fun fields el st => procArg_obj fields el st, ?_,
    fun fields el st => addPropsGo_preserve fields el st⟩
  intro v h
  cases v with
  | obj fields => exact ⟨fields, rfl⟩
  | undef => simp [jsTag] at h
  | null => simp [jsTag] at h
  | bool b => simp [jsTag] at h
  | num n => simp [jsTag] at h
  | str s => simp [jsTag] at h
  | arr xs ps => simp [jsTag] at h
  | nodeRef i => simp [jsTag] at h
  | func f => simp [jsTag] at h

theorem C10_plain_object_route_wit :
    ∃ fields, (JSVal.obj .nil) = JSVal.obj fields :=
  C10_plain_object_route.2.1 (.obj .nil) rfl

/-- Hook-ordering lemma, single-leaf case: for a benign non-sequence value
exposing both append hooks, `addChildren` records the before-hook call
(with a children snapshot lacking the new content), appends the content,
then records the after-hook call with a snapshot containing it. -/
theorem appendHooks_leaf_aux (v : JSVal) (el : Nat) (st : St) (f g : Fn)
    (hna : isArr v = false)
    (hbf : hookProp st v "onbeforeappend" = some f)
    (haf : ∀ stB, propsFnStable st stB → hookProp stB v "onappend" = some g)
    (htv : truthy v = true)
    (hb : benign st v = true)
    (hr : ∀ r ∈ refsOf v,
      r < st.nodes.length ∧ Unattached st r ∧ r ≠ el ∧ (getN st r).children = [])
    (hw : WfSt st) (hel : el < st.nodes.length) :
    ∃ st' ids cs₁ evs, addChildren v el st = .ok st' ∧
      st'.trace = st.trace ++ [Event.call f.id el (getN st el).children] ++ evs
        ++ [Event.call g.id el cs₁] ∧
      (getN st' el).children = (getN st el).children ++ ids ∧
      List.Forall₂ (leafMatches st') (flatten v) ids ∧
      (∀ i ∈ ids, i ∉ (getN st el).children) ∧
      (∀ i ∈ ids, i ∈ cs₁) := by
  obtain ⟨hbefore, hafter⟩ := benign_hooks st v hna hb
  have hok_f : nonRaising f.body = true := by
    have h := hbefore
    rw [hbf] at h
    exact h
  obtain ⟨st₁, h1eq, _, h1len, h1ch, h1fr, _, h1oob, h1stable, h1wf⟩ :=
    runHook_spec (some f) el st hok_f
  obtain ⟨h1trace, h1ch2⟩ := runHook_some_ok f el st st₁ hok_f h1eq
  have hel₁ : el < st₁.nodes.length := by omega
  have hb₁ : benign st₁ v = true := benign_mono_leaf st st₁ v hna h1stable hb
  obtain ⟨st₂, c, h2eq, ⟨⟨evs₂, h2tr⟩, h2len, h2src, h2cb, h2fb, h2el, h2fr, h2oob, h2props,
    h2match, h2wf⟩⟩ := appendLeaf_spec v el st₁ hna hb₁ hel₁
  have hnotin : ∀ j, j < st.nodes.length → c ∉ (getN st j).children := by
    intro j hj hmem
    rcases h2src with hs | hs
    · exact (hr c hs).2.1 j hmem
    · exact absurd (hw j c hmem) (by omega)
  have hch₂ : (getN st₂ el).children = (getN st el).children ++ [c] := by
    rw [h2el]
    show (getN st₁ el).children.filter (· ≠ c) ++ [c] = (getN st el).children ++ [c]
    rw [h1ch2 el, filter_ne_of_not_mem _ _ (hnotin el hel)]
  have hstable₂ : propsFnStable st st₂ :=
    propsFnStable_trans h1stable (propsFnStable_of_propsEq h2props)
  have hg : hookProp st₂ v "onappend" = some g := haf st₂ hstable₂
  have hok_g : nonRaising g.body = true := by
    have h := hafter st₂ hstable₂
    rw [hg] at h
    exact h
  obtain ⟨st₃, h3eq, _, h3len, h3ch, h3fr, _, h3oob, h3stable, _⟩ :=
    runHook_spec (some g) el st₂ hok_g
  obtain ⟨h3trace, h3ch2⟩ := runHook_some_ok g el st₂ st₃ hok_g h3eq
  have hcel : c ≠ el := by
    rcases h2src with hs | hs
    · exact (hr c hs).2.2.1
    · omega
  have hclt₂ : c < st₂.nodes.length :=
    h2cb (fun r hrm => by have := (hr r hrm).1; omega)
  have hifb : (if truthy v then hookProp st v "onbeforeappend" else none) = some f := by
    rw [if_pos htv, hbf]
  have hifa : (if truthy v then hookProp st₂ v "onappend" else none) = some g := by
    rw [if_pos htv, hg]
  refine ⟨st₃, [c], (getN st₂ el).children, evs₂, ?_, ?_, ?_, ?_, ?_, ?_⟩
  · rw [addChildren_nonarr_eq v el st hna]
    simp only [hifb, h1eq, h2eq, hifa, h3eq]
  · rw [h3trace, h2tr, h1trace]
  · rw [h3ch2 el, hch₂]
  · rw [flatten_nonarr v hna]
    exact .cons (leafMatches_transport (fun _ => h3fr c hcel hclt₂) h2match) .nil
  · intro i hi
    rw [List.mem_singleton.mp hi]
    exact hnotin el hel
  · intro i hi
    rw [List.mem_singleton.mp hi, hch₂]
    exact List.mem_append_right _ (List.mem_singleton.mpr rfl)

/-- C5: for a benign child value exposing a before-append and an
after-append hook (looked up once on the value itself — for a sequence,
once for the sequence as a whole), with its existing-node references
distinct, unattached, childless and different from the target (so the
dispatch between the hooks cannot raise) and no function among its leaves
(whose rendered text the embedding does not model), `addChildren` records
exactly
one before-hook call event, whose children snapshot of the parent precedes
the appended content, then appends the content, then records exactly one
after-hook call event whose snapshot contains the appended content. -/
theorem C5_append_hooks (v : JSVal) (el : Nat) (st : St) (f g : Fn)
    (hbf : hookProp st v "onbeforeappend" = some f)
    (haf : ∀ stB, propsFnStable st stB → hookProp stB v "onappend" = some g)
    (hb : benign st v = true) (hff : funcFree v = true) (hnd : (refsOf v).Nodup)
    (hr : ∀ r ∈ refsOf v,
      r < st.nodes.length ∧ Unattached st r ∧ r ≠ el ∧ (getN st r).children = [])
    (hw : WfSt st) (hel : el < st.nodes.length) :
    ∃ st' ids cs₁ evs, addChildren v el st = .ok st' ∧
      st'.trace = st.trace ++ [Event.call f.id el (getN st el).children] ++ evs
        ++ [Event.call g.id el cs₁] ∧
      (getN st' el).children = (getN st el).children ++ ids ∧
      List.Forall₂ (leafMatches st') (flatten v) ids ∧
      (∀ i ∈ ids, i ∉ (getN st el).children) ∧
      (∀ i ∈ ids, i ∈ cs₁) := by
  cases v with
  | undef => exact Option.noConfusion hbf
  | null => exact Option.noConfusion hbf
  | bool b => exact Option.noConfusion hbf
  | num n => exact Option.noConfusion hbf
  | str s => exact Option.noConfusion hbf
  | func fn => exact Option.noConfusion hbf
  | obj fields =>
      exact appendHooks_leaf_aux (.obj fields) el st f g rfl hbf haf rfl hb hr hw hel
  | nodeRef i =>
      exact appendHooks_leaf_aux (.nodeRef i) el st f g rfl hbf haf rfl hb hr hw hel
  | arr xs ps =>
      have hbd := hb
      simp only [benign, Bool.and_eq_true] at hbd
      have hbf₂ : asFn (lookupA ps "onbeforeappend") = some f := hbf
      have hok_f : nonRaising f.body = true := by
        have h := hbd.1.1
        rw [hbf₂] at h
        exact h
      obtain ⟨st₁, h1eq, _, h1len, h1ch, h1fr, _, h1oob, h1stable, h1wf⟩ :=
        runHook_spec (some f) el st hok_f
      obtain ⟨h1trace, h1ch2⟩ := runHook_some_ok f el st st₁ hok_f h1eq
      obtain ⟨st₂, ids, h2eq, h2len, h2fr, h2oob, h2chEl, h2ids, h2f2, h2stable, h2wf⟩ :=
        addChildrenList_master xs el st₁
          (benignList_mono st st₁ h1stable xs hbd.2) hnd
          (fun r hrm =>
            ⟨by have := (hr r hrm).1; omega,
             unattached_of_childrenEq h1ch2 (hr r hrm).2.1,
             (hr r hrm).2.2.1⟩)
          (h1wf hw) (by omega)
      obtain ⟨st₂x, h2eqx, _, _, evs₂, h2trx⟩ :=
        addChildrenList_total xs el st₁ (benignList_mono st st₁ h1stable xs hbd.2) (by omega)
      rw [h2eq] at h2eqx
      have hst2 : st₂ = st₂x := Except.ok.inj h2eqx
      have h2tr : st₂.trace = st₁.trace ++ evs₂ := by
        rw [hst2]
        exact h2trx
      have hstable₂ : propsFnStable st st₂ := propsFnStable_trans h1stable h2stable
      have hg : hookProp st₂ (.arr xs ps) "onappend" = some g := haf st₂ hstable₂
      have hg₂ : asFn (lookupA ps "onappend") = some g := hg
      have hok_g : nonRaising g.body = true := by
        have h := hbd.1.2
        rw [hg₂] at h
        exact h
      obtain ⟨st₃, h3eq, _, h3len, h3ch, h3fr, _, h3oob, h3stable, _⟩ :=
        runHook_spec (some g) el st₂ hok_g
      obtain ⟨h3trace, h3ch2⟩ := runHook_some_ok g el st₂ st₃ hok_g h3eq
      have hch₂ : (getN st₂ el).children = (getN st el).children ++ ids := by
        rw [h2chEl, h1ch2 el]
      refine ⟨st₃, ids, (getN st₂ el).children, evs₂, ?_, ?_, ?_, ?_, ?_, ?_⟩
      · rw [addChildren_arr_eq]
        simp only [hbf₂, h1eq, h2eq, hg₂, h3eq]
      · rw [h3trace, h2tr, h1trace]
      · rw [h3ch2 el, hch₂]
      · exact forall2_leafMatches_stable
          (fun c hc => h3fr c (h2ids c hc).2.2 (h2ids c hc).2.1) h2f2
      · intro i hi hmem
        rcases (h2ids i hi).1 with hs | hs
        · exact (hr i hs).2.1 el hmem
        · exact absurd (hw el i hmem) (by omega)
      · intro i hi
        rw [hch₂]
        exact List.mem_append_right _ hi

theorem C5_append_hooks_wit :
    ∃ st' ids cs₁ evs,
      addChildren (.obj (.cons "onbeforeappend" (.func ⟨1, .ret⟩)
          (.cons "onappend" (.func ⟨2, .ret⟩) .nil))) 0 st₀ = .ok st' ∧
      st'.trace = st₀.trace ++ [Event.call 1 0 (getN st₀ 0).children] ++ evs
        ++ [Event.call 2 0 cs₁] ∧
      (getN st' 0).children = (getN st₀ 0).children ++ ids ∧
      List.Forall₂ (leafMatches st')
        (flatten (.obj (.cons "onbeforeappend" (.func ⟨1, .ret⟩)
          (.cons "onappend" (.func ⟨2, .ret⟩) .nil)))) ids ∧
      (∀ i ∈ ids, i ∉ (getN st₀ 0).children) ∧
      (∀ i ∈ ids, i ∈ cs₁) :=
  C5_append_hooks
    (.obj (.cons "onbeforeappend" (.func ⟨1, .ret⟩)
      (.cons "onappend" (.func ⟨2, .ret⟩) .nil))) 0 st₀ ⟨1, .ret⟩ ⟨2, .ret⟩
    rfl (fun _ _ => rfl) (by decide) (by decide) (by decide)
    (fun r hr => absurd hr (List.not_mem_nil r))
    ((wfSt_iff st₀).mpr (by decide)) (by decide)

end Hyperscribe

